import Mathlib

/-!
# Verification of core runtime claims for the kitarefake/cpython tree

Shallow embedding, in Lean 4, of the parts of the source tree that the
frozen claims C1..C10 are about:

* `src/Modules/gcmodule.c` — the reference-cycle collector
  (`update_refs`, `subtract_refs`, `move_unreachable`, `move_finalizers`,
  `move_finalizer_reachable`, `delete_garbage`, `handle_finalizers`,
  `collect`, `collect_generations`, `gc_collect`, `_PyObject_GC_Malloc`).
* `src/Python/pystate.c` — GILState ensure/release
  (`PyGILState_Ensure`, `PyGILState_Release`), the chunked frame stack
  (`push_chunk`, `_PyThreadState_PushFrame`, `_PyThreadState_PopFrame`),
  runtime initialization (`alloc_for_runtime`, `_PyRuntimeState_Init`),
  and `PyThreadState_SetAsyncExc`.
* `src/Python/random.c` — `lcg_urandom` and `_PyRandom_Init`.
* `src/Python/pytime.c` — `_PyTime_RoundTowardsPosInf`, `_PyTime_Multiply`,
  `_PyTime_AsMilliseconds`, `_PyTime_AsMicroseconds`.

Machine integers are modelled as `Nat`/`Int` with explicit `% 2^w` where
wrap-around matters.  Object pointers are modelled as natural-number
identities; the circular doubly-linked `PyGC_Head` lists are modelled as
Lean lists holding those identities in the same traversal order.
-/

namespace CPy

/-! ## gcmodule.c: object states

`gc_refs` of a tracked object is a machine integer that is either one of the
sentinels `GC_UNTRACKED`, `GC_REACHABLE`, `GC_TENTATIVELY_UNREACHABLE`
(all distinct negative constants), or a non-negative transient refcount used
during a collection pass.  We model it as a sum type. -/

inductive St : Type where
  | untracked : St
  | reachable : St
  | tentUnreachable : St
  | refs : Nat → St
  deriving DecidableEq, Repr

/-- The per-object data of the heap that the collector consults through
object-model callbacks: the true reference count (`ob_refcnt`), the children
enumerated by `tp_traverse` (GC-tracked referents only, since every visitor in
gcmodule.c first checks `PyObject_IS_GC`), whether `has_finalizer` reports a
`__del__` method, and whether the refcount-driven deallocation triggered by
`tp_clear` in `delete_garbage` actually frees the object (the refcounting
machinery itself lives outside gcmodule.c). -/
structure Heap : Type where
  refcnt : Nat → Nat
  children : Nat → List Nat
  hasFinalizer : Nat → Bool
  clearDies : Nat → Bool

/-- Pointwise update of a `gc_refs` assignment. -/
def setSt (st : Nat → St) (o : Nat) (v : St) : Nat → St :=
  fun x => if x = o then v else st x

@[simp] theorem setSt_same (st : Nat → St) (o : Nat) (v : St) : setSt st o v o = v := by
  simp [setSt]

theorem setSt_other (st : Nat → St) {o x : Nat} (v : St) (h : x ≠ o) :
    setSt st o v x = st x := by
  simp [setSt, h]

/-! ### update_refs and subtract_refs (gcmodule.c lines 210-254) -/

/-- `update_refs(containers)`: for each object in the list, copy its real
refcount into `gc_refs` (`gc->gc.gc_refs = FROM_GC(gc)->ob_refcnt`). -/
def update_refs (H : Heap) (Y : List Nat) (st : Nat → St) : Nat → St :=
  Y.foldl (fun st o => setSt st o (.refs (H.refcnt o))) st

/-- `visit_decref`: decrement `gc_refs` of a visited GC object when it is
positive (`if (gc->gc.gc_refs > 0) gc->gc.gc_refs--`). -/
def visit_decref (st : Nat → St) (c : Nat) : Nat → St :=
  match st c with
  | .refs (n + 1) => setSt st c (.refs n)
  | _ => st

/-- `subtract_refs(containers)`: run every listed object's traverse callback
with `visit_decref`. -/
def subtract_refs (H : Heap) (Y : List Nat) (st : Nat → St) : Nat → St :=
  Y.foldl (fun st o => (H.children o).foldl visit_decref st) st

/-- Number of references to `o` held by objects of the list `Y`
(the references that `subtract_refs` subtracts). -/
def intRefs (H : Heap) (Y : List Nat) (o : Nat) : Nat :=
  (Y.flatMap H.children).count o

/-- Number of references to `o` from outside the list `Y`:
its true refcount minus the internal references. -/
def extRefs (H : Heap) (Y : List Nat) (o : Nat) : Nat :=
  H.refcnt o - intRefs H Y o

/-- Objects of `Y` that are reachable from outside `Y`: either referenced
directly from outside (`extRefs > 0`), or referenced by an object of `Y` that
is itself reachable from outside. -/
inductive ReachableOut (H : Heap) (Y : List Nat) : Nat → Prop where
  | base {o : Nat} : o ∈ Y → 0 < extRefs H Y o → ReachableOut H Y o
  | step {p c : Nat} : ReachableOut H Y p → c ∈ H.children p → c ∈ Y →
      ReachableOut H Y c

/-! ### move_unreachable (gcmodule.c lines 308-358)

The C function walks the circular `young` list with a cursor.  Objects to the
left of the cursor that stayed in `young` are exactly the ones already marked
`GC_REACHABLE`; we keep them in `scanned`.  Objects not yet reached by the
cursor are `pending` (appending to the tail of the circular list appends to
the end of `pending`).  `unreachable` is the output list. -/

structure MUState : Type where
  scanned : List Nat
  pending : List Nat
  unreachable : List Nat
  st : Nat → St

/-- `visit_reachable(op, reachable)`: `gc_refs == 0` means the object is in
`young` but not yet scanned — set it to 1; `GC_TENTATIVELY_UNREACHABLE` means
it was moved to `unreachable` — move it back to the tail of `young` with
`gc_refs = 1`; anything else is left alone. -/
def visit_reachable (s : MUState) (c : Nat) : MUState :=
  match s.st c with
  | .refs 0 => { s with st := setSt s.st c (.refs 1) }
  | .tentUnreachable =>
      { s with
        unreachable := s.unreachable.erase c
        pending := s.pending ++ [c]
        st := setSt s.st c (.refs 1) }
  | _ => s

/-- One iteration of `move_unreachable`'s `while (gc != young)` loop.
`if (gc->gc.gc_refs)` — i.e. the `gc_refs == 0` test decides the branch; in
the nonzero branch the object is marked `GC_REACHABLE` *before* its traverse
callback runs. -/
def mu_step (H : Heap) (s : MUState) : MUState :=
  match s.pending with
  | [] => s
  | o :: rest =>
    match s.st o with
    | .refs 0 =>
        { s with
          pending := rest
          unreachable := s.unreachable ++ [o]
          st := setSt s.st o .tentUnreachable }
    | _ =>
        (H.children o).foldl visit_reachable
          { s with
            pending := rest
            scanned := s.scanned ++ [o]
            st := setSt s.st o .reachable }

/-- Fuelled iteration of `mu_step` until the cursor reaches the list head
(`pending = []`).  The termination bound is proved separately
(`mu_run_measure`): `3 * |young|` steps always suffice. -/
def mu_run (H : Heap) : Nat → MUState → MUState
  | 0, s => s
  | fuel + 1, s =>
    match s.pending with
    | [] => s
    | _ :: _ => mu_run H fuel (mu_step H s)

/-- `move_unreachable(young, unreachable)`. -/
def move_unreachable (H : Heap) (Y : List Nat) (st : Nat → St) : MUState :=
  mu_run H (3 * Y.length) { scanned := [], pending := Y, unreachable := [], st := st }

/-- Safety of an object `c` during `move_unreachable`: either already scanned
(`GC_REACHABLE`), or still ahead of the cursor with a positive `gc_refs`, so
the `gc_refs == 0` test cannot send it to `unreachable`.  Every `young`-member
child of a scanned object is safe, which is why scanning is monotone. -/
def MUSafe (s : MUState) (c : Nat) : Prop :=
  c ∈ s.scanned ∨ (c ∈ s.pending ∧ ∃ n, s.st c = .refs (n + 1))

/-- The core invariant of the `move_unreachable` loop, relative to the heap,
the merged young list `Y` and the `gc_refs` assignment `st` the collector had
*before* `update_refs` ran: the three lists partition `Y` (stated with
occurrence counts); scanned objects are marked `GC_REACHABLE` and really are
reachable from outside; objects ahead of the cursor carry a transient count
that is either still their external-reference count or has been bumped
positive by a reachable parent; tentatively-unreachable objects are marked so
and have no external references; objects outside `Y` are never touched. -/
structure MUCore (H : Heap) (Y : List Nat) (st : Nat → St) (s : MUState) : Prop where
  count_eq : ∀ o, s.scanned.count o + s.pending.count o + s.unreachable.count o = Y.count o
  scanned_st : ∀ o ∈ s.scanned, s.st o = .reachable
  scanned_reach : ∀ o ∈ s.scanned, ReachableOut H Y o
  pending_st : ∀ o ∈ s.pending, ∃ n, s.st o = .refs n
  pending_refs : ∀ o ∈ s.pending, ∀ n, s.st o = .refs n →
    n = extRefs H Y o ∨ (0 < n ∧ ReachableOut H Y o)
  unreach_st : ∀ o ∈ s.unreachable, s.st o = .tentUnreachable
  unreach_ext : ∀ o ∈ s.unreachable, extRefs H Y o = 0
  outside : ∀ o, o ∉ Y → s.st o = st o

/-- Every `Y`-member child of a scanned object is safe (`MUSafe`). -/
def MUChildOK (H : Heap) (Y : List Nat) (s : MUState) : Prop :=
  ∀ p ∈ s.scanned, ∀ c ∈ H.children p, c ∈ Y → MUSafe s c

/-- Weight of an object ahead of the cursor: an object with `gc_refs = 0`
costs 2 (it may be moved to `unreachable` and later resurrected), any other
costs 1. -/
def muWeight (v : St) : Nat :=
  match v with
  | .refs 0 => 2
  | _ => 1

/-- Termination measure of the `move_unreachable` loop: total weight of the
objects ahead of the cursor plus the size of the `unreachable` list.  Every
iteration of the loop decreases it. -/
def muW (s : MUState) : Nat :=
  (s.pending.map (fun o => muWeight (s.st o))).sum + s.unreachable.length

/-! ### move_finalizers and move_finalizer_reachable (gcmodule.c lines 385-435) -/

/-- State threaded through the finalizer-handling passes: the `unreachable`
list, the `finalizers` list and the `gc_refs` assignment. -/
structure FinState : Type where
  unreachable : List Nat
  finalizers : List Nat
  st : Nat → St

/-- `move_finalizers(unreachable, finalizers)`: walk `unreachable` once; each
object with `has_finalizer` is moved to the tail of `finalizers` and marked
`GC_REACHABLE`. -/
def move_finalizers (H : Heap) (s : FinState) : FinState :=
  s.unreachable.foldl
    (fun s o =>
      if H.hasFinalizer o then
        { s with
          unreachable := s.unreachable.erase o
          finalizers := s.finalizers ++ [o]
          st := setSt s.st o .reachable }
      else s)
    s

/-- `visit_move(op, tolist)`: a tentatively-unreachable visited object is
moved from `unreachable` to the tail of `finalizers` and marked
`GC_REACHABLE`. -/
def visit_move (s : FinState) (todo : List Nat) (c : Nat) : FinState × List Nat :=
  match s.st c with
  | .tentUnreachable =>
      ({ s with
         unreachable := s.unreachable.erase c
         finalizers := s.finalizers ++ [c]
         st := setSt s.st c .reachable }, todo ++ [c])
  | _ => (s, todo)

/-- Fuelled cursor walk for `move_finalizer_reachable`: `todo` is the part of
the (growing) `finalizers` list the cursor has not visited yet.  Objects that
`visit_move` appends to `finalizers` are appended to `todo` as well, exactly
as the C cursor will reach them later.  Each step removes one element from
`todo + unreachable`, so `|finalizers| + |unreachable|` fuel suffices. -/
def mfr_run (H : Heap) : Nat → FinState → List Nat → FinState
  | 0, s, _ => s
  | _ + 1, s, [] => s
  | fuel + 1, s, o :: rest =>
    let (s', todo') := (H.children o).foldl
      (fun (p : FinState × List Nat) c => visit_move p.1 p.2 c) (s, rest)
    mfr_run H fuel s' todo'

/-- `move_finalizer_reachable(finalizers)`: run every finalizer's traverse
callback with `visit_move`; the list may grow while it is walked. -/
def move_finalizer_reachable (H : Heap) (s : FinState) : FinState :=
  mfr_run H (s.finalizers.length + s.unreachable.length) s s.finalizers

/-! ### The generations and the module-level state (gcmodule.c lines 31-77) -/

/-- One `struct gc_generation`: the list head, the collection threshold and
the allocation/collection count (both C `int`s). -/
structure Gen : Type where
  lst : List Nat
  threshold : Int
  count : Int

/-- The global state of gcmodule.c: the three generations, the `enabled`,
`collecting` flags, the `gc.garbage` list, the debug bitmask, the pending
C-level exception flag consulted by `PyErr_Occurred()`, and the `gc_refs`
field of every object. -/
structure GCState : Type where
  g0 : Gen
  g1 : Gen
  g2 : Gen
  enabled : Bool
  collecting : Bool
  errOccurred : Bool
  garbage : List Nat
  debug : Nat
  st : Nat → St

def DEBUG_SAVEALL : Nat := 32

def getGen (s : GCState) : Nat → Gen
  | 0 => s.g0
  | 1 => s.g1
  | _ => s.g2

def setGen (s : GCState) : Nat → Gen → GCState
  | 0, g => { s with g0 := g }
  | 1, g => { s with g1 := g }
  | _, g => { s with g2 := g }

/-! ### delete_garbage and handle_finalizers (gcmodule.c lines 472-526) -/

/-- State threaded through `delete_garbage`: the `unreachable` (collectable)
list, the `old` list it resurrects into, the `gc.garbage` list, generation 0's
allocation count (decremented by `PyObject_GC_Del` when a cleared object is
actually freed) and the `gc_refs` assignment. -/
structure DGState : Type where
  collectable : List Nat
  old : List Nat
  garbage : List Nat
  count0 : Int
  st : Nat → St

/-- One iteration of `delete_garbage`'s loop on the head object: with
`DEBUG_SAVEALL` the object is appended to `gc.garbage` (no clear call, so it
stays alive and is moved to `old` as `GC_REACHABLE`); otherwise `tp_clear`
runs and either the refcount-driven deallocation frees the object
(`H.clearDies`; `PyObject_GC_Del` unlinks it and decrements
`generations[0].count` if positive) or the object survives and is moved to
`old` as `GC_REACHABLE`.  Cascaded frees of *other* listed objects by a dying
object's clear are outside gcmodule.c and are not modelled; every theorem
below that runs `delete_garbage` does so on an empty or surviving list. -/
def dg_step (H : Heap) (dbg : Nat) (s : DGState) : DGState :=
  match s.collectable with
  | [] => s
  | o :: rest =>
    if dbg &&& DEBUG_SAVEALL ≠ 0 then
      { s with
        collectable := rest
        old := s.old ++ [o]
        garbage := s.garbage ++ [o]
        st := setSt s.st o .reachable }
    else if H.clearDies o then
      { s with
        collectable := rest
        count0 := if 0 < s.count0 then s.count0 - 1 else s.count0 }
    else
      { s with
        collectable := rest
        old := s.old ++ [o]
        st := setSt s.st o .reachable }

/-- Fuelled `while (!gc_list_is_empty(collectable))` loop; each step removes
the head, so `|collectable|` fuel suffices. -/
def dg_run (H : Heap) (dbg : Nat) : Nat → DGState → DGState
  | 0, s => s
  | fuel + 1, s =>
    match s.collectable with
    | [] => s
    | _ :: _ => dg_run H dbg fuel (dg_step H dbg s)

def delete_garbage (H : Heap) (dbg : Nat) (s : DGState) : DGState :=
  dg_run H dbg s.collectable.length s

/-- `handle_finalizers(finalizers, old)`: append to `gc.garbage` every
finalizer-list object that has a `__del__` method (or every one of them under
`DEBUG_SAVEALL`), then merge the whole finalizers list into `old`. -/
def handle_finalizers (H : Heap) (dbg : Nat) (finalizers old garbage : List Nat) :
    List Nat × List Nat :=
  (old ++ finalizers,
   garbage ++ finalizers.filter (fun o => dbg &&& DEBUG_SAVEALL ≠ 0 || H.hasFinalizer o))

/-! ### collect (gcmodule.c lines 530-660) -/

/-- `collect(generation)`.  Steps, in source order: bump the next older
generation's count and zero the counts of the collected generations; merge the
younger generations into generation `generation`; `update_refs`;
`subtract_refs`; `move_unreachable`; merge the survivors into `old`;
`move_finalizers`; `move_finalizer_reachable`; count `m` (collectable);
`delete_garbage`; count `n` (uncollectable); `handle_finalizers`.
Returns `n + m` and the new state. -/
def collect (H : Heap) (generation : Nat) (s : GCState) : Int × GCState :=
  -- update collection and allocation counters
  let s := if generation + 1 < 3 then
      setGen s (generation + 1)
        { getGen s (generation + 1) with count := (getGen s (generation + 1)).count + 1 }
    else s
  let s := (List.range (generation + 1)).foldl
      (fun s i => setGen s i { getGen s i with count := 0 }) s
  -- merge younger generations with the one we are currently collecting
  let s := (List.range generation).foldl
      (fun s i =>
        let s := setGen s generation
          { getGen s generation with lst := (getGen s generation).lst ++ (getGen s i).lst }
        setGen s i { getGen s i with lst := [] })
      s
  let young := (getGen s generation).lst
  let oldIdx := if generation < 2 then generation + 1 else generation
  -- gc_refs bookkeeping
  let st := subtract_refs H young (update_refs H young s.st)
  let mu := move_unreachable H young st
  -- move reachable objects to the next generation
  let s := setGen s generation { getGen s generation with lst := [] }
  let s := if generation < 2 then
      setGen s oldIdx { getGen s oldIdx with lst := (getGen s oldIdx).lst ++ mu.scanned }
    else
      setGen s oldIdx { getGen s oldIdx with lst := mu.scanned }
  -- move unreachable objects with finalizers, and what they reach
  let fs := move_finalizer_reachable H
      (move_finalizers H { unreachable := mu.unreachable, finalizers := [], st := mu.st })
  let m : Int := fs.unreachable.length
  -- break the cycles
  let dg := delete_garbage H s.debug
      { collectable := fs.unreachable, old := (getGen s oldIdx).lst,
        garbage := s.garbage, count0 := s.g0.count, st := fs.st }
  let s := { setGen s oldIdx { getGen s oldIdx with lst := dg.old } with
             garbage := dg.garbage, st := dg.st }
  let s := { s with g0 := { s.g0 with count := dg.count0 } }
  let n : Int := fs.finalizers.length
  -- append uncollectable objects to gc.garbage and merge them into old
  let hf := handle_finalizers H s.debug fs.finalizers (getGen s oldIdx).lst s.garbage
  let s := { setGen s oldIdx { getGen s oldIdx with lst := hf.1 } with garbage := hf.2 }
  (n + m, s)

/-! ### collect_generations, gc_collect, _PyObject_GC_Malloc
(gcmodule.c lines 662-678, 722-736, 1027-1047) -/

/-- `collect_generations()`: find the oldest (highest-numbered) generation
whose count exceeds its threshold and collect it (younger generations are
merged in by `collect`). -/
def collect_generations (H : Heap) (s : GCState) : Int × GCState :=
  if s.g2.threshold < s.g2.count then collect H 2 s
  else if s.g1.threshold < s.g1.count then collect H 1 s
  else if s.g0.threshold < s.g0.count then collect H 0 s
  else (0, s)

/-- The generation-selection rule as the spec words it, for comparison with
`collect_generations`: the oldest (highest-numbered) generation whose
allocation count exceeds its threshold (defaulting to 0, the generation the
caller just bumped). -/
def oldestOver (s : GCState) : Nat :=
  if s.g2.threshold < s.g2.count then 2
  else if s.g1.threshold < s.g1.count then 1
  else 0

/-- `gc_collect()` (the `gc.collect` module function): if a collection is
already running, return 0 and do nothing; otherwise collect the oldest
generation under the `collecting` flag. -/
def gc_collect (H : Heap) (s : GCState) : Int × GCState :=
  if s.collecting then (0, s)
  else
    let r := collect H 2 { s with collecting := true }
    (r.1, { r.2 with collecting := false })

/-- The counter/trigger logic of `_PyObject_GC_Malloc`: bump
`generations[0].count`; if it now exceeds the (nonzero) threshold while
automatic collection is enabled, no collection is in progress and no
exception is pending, run `collect_generations()` under the `collecting`
flag.  (The object itself is created `GC_UNTRACKED` and is in no list, so it
does not appear in the state.) -/
def gc_malloc (H : Heap) (s : GCState) : GCState :=
  let s := { s with g0 := { s.g0 with count := s.g0.count + 1 } }
  if s.g0.threshold < s.g0.count ∧ s.enabled = true ∧ s.g0.threshold ≠ 0 ∧
      s.collecting = false ∧ s.errOccurred = false then
    let s := { s with collecting := true }
    let s := (collect_generations H s).2
    { s with collecting := false }
  else s

/-! ## pystate.c: PyGILState_Ensure / PyGILState_Release (lines 2308-2405)

One OS thread's view of the GILState machinery.  `tss` is the thread's
gilstate TSS slot (`gilstate_tss_get`), holding the counter of the bound
thread state when occupied.  `current` says whether that thread state is the
thread-local `_Py_tss_tstate`, which for a bound slot is exactly
`holds_gil(tstate)` (pystate.c line 359).  `PyEval_RestoreThread` /
`PyEval_SaveThread` attach and detach via `_PyThreadState_Attach` /
`_PyThreadState_Detach` (lines 1888-1938), which set and clear the current
pointer while acquiring and releasing the GIL; `_PyThreadState_DeleteCurrent`
(lines 1696-1705) unbinds the gilstate slot, clears the current pointer and
releases the GIL. -/

inductive GilToken : Type where
  | locked : GilToken
  | unlocked : GilToken
  deriving DecidableEq, Repr

structure GilS : Type where
  /-- `gilstate_tss_get(runtime)` for this OS thread: `some c` is a bound
  thread state with `gilstate_counter = c`. -/
  tss : Option Int
  /-- whether the bound thread state is the current (GIL-holding) one. -/
  current : Bool
  deriving DecidableEq, Repr

/-- `PyGILState_Ensure()`.  A missing thread state is created
(`new_threadstate` initializes `gilstate_counter = 1`, pystate.c line 1419),
bound, and its counter reset to 0; `has_gil` is false for it.  Then the GIL
is acquired if not held, the counter is incremented, and the token records
the previous GIL state. -/
def PyGILState_Ensure (s : GilS) : GilToken × GilS :=
  match s.tss with
  | none =>
      -- new_threadstate initializes gilstate_counter = 1 (line 1419);
      -- Ensure immediately resets it to 0 (line 2340)
      let tcur : Int := 0
      let has_gil : Bool := false
      let s := { s with tss := some tcur }
      let s := if !has_gil then { s with current := true } else s
      (if has_gil then .locked else .unlocked,
       { s with tss := s.tss.map (· + 1) })
  | some tcur =>
      let has_gil : Bool := s.current
      let s := if !has_gil then { s with current := true } else s
      (if has_gil then .locked else .unlocked,
       { s with tss := some (tcur + 1) })

/-- `PyGILState_Release(oldstate)`.  `none` models the two fatal-error exits
(no bound thread state, or releasing without holding the GIL). -/
def PyGILState_Release (oldstate : GilToken) (s : GilS) : Option GilS :=
  match s.tss with
  | none => none                       -- Py_FatalError: no thread-state
  | some tstate =>
      if !s.current then none          -- fatal: must be current when releasing
      else
        let c := tstate - 1
        if c = 0 then
          -- PyThreadState_Clear + _PyThreadState_DeleteCurrent:
          -- unbind the gilstate slot, clear current, release the GIL
          some { tss := none, current := false }
        else if oldstate = .unlocked then
          -- PyEval_SaveThread: detach, releasing the GIL
          some { tss := some c, current := false }
        else
          some { tss := some c, current := true }

/-- `N` nested `ensure`s followed by the `N` matching `release`s, innermost
first. -/
def gilNest : Nat → GilS → Option GilS
  | 0, s => some s
  | n + 1, s =>
      let (tok, s₁) := PyGILState_Ensure s
      (gilNest n s₁).bind (PyGILState_Release tok)

/-! ## pystate.c: alloc_for_runtime / _PyRuntimeState_Init (lines 395-495)

`alloc` says whether the `i`-th call to `PyThread_allocate_lock` succeeds.
Lock slots hold `some i` once allocated; `none` models both a freed slot and
a never-written (indeterminate) one. -/

def NUMLOCKS : Nat := 8

/-- The `for (int i = 0; i < NUMLOCKS; i++)` loop of `alloc_for_runtime`:
on the first failed allocation, free (null out) the locks allocated so far
and break.  (The loop body runs at most `NUMLOCKS` times; the first argument
is structural fuel covering that bound.) -/
def allocLoop (alloc : Nat → Bool) : Nat → Nat → List (Option Nat) → List (Option Nat)
  | 0, _, locks => locks
  | fuel + 1, i, locks =>
    if i < NUMLOCKS then
      if alloc i then allocLoop alloc fuel (i + 1) (locks.set i (some i))
      else (List.range NUMLOCKS).foldl
        (fun l j => if j < i then l.set j none else l) locks
    else locks

/-- `alloc_for_runtime(locks)`: the function **always returns 0**, even when
an allocation failed and the rollback ran (the failing branch only frees and
breaks; no error code is set before `return 0`). -/
def alloc_for_runtime (alloc : Nat → Bool) : List (Option Nat) × Int :=
  (allocLoop alloc (NUMLOCKS + 1) 0 (List.replicate NUMLOCKS none), 0)

inductive PyStatus : Type where
  | ok : PyStatus
  | noMemory : PyStatus
  deriving DecidableEq, Repr

/-- `_PyRuntimeState_Init`, reduced to its failure structure: allocate the
locks (returning `no_memory` if `alloc_for_runtime` reports failure), then
create the gilstate TSS key and the trash TSS key (each failure runs
`_PyRuntimeState_Fini` and returns `no_memory`), then `init_runtime`
installs the locks. -/
def PyRuntimeState_Init (alloc : Nat → Bool) (tssOk trashOk : Bool) :
    PyStatus × List (Option Nat) :=
  let (locks, r) := alloc_for_runtime alloc
  if r ≠ 0 then (.noMemory, locks)
  else if !tssOk then (.noMemory, List.replicate NUMLOCKS none)
  else if !trashOk then (.noMemory, List.replicate NUMLOCKS none)
  else (.ok, locks)

/-! ## pystate.c: PyThreadState_SetAsyncExc (lines 1954-1989) -/

/-- The fields of a thread state that `PyThreadState_SetAsyncExc` reads and
writes: the OS thread id and the pending asynchronous exception. -/
structure AsyncTS : Type where
  thread_id : Nat
  async_exc : Option Nat
  deriving DecidableEq, Repr

/-- `PyThreadState_SetAsyncExc(id, exc)`: walk the interpreter's thread list
from the head; at the first thread state whose `thread_id` matches, swap in
`Py_XNewRef(exc)` (dropping the old value) and return 1; if none matches,
return 0. -/
def PyThreadState_SetAsyncExc (id : Nat) (exc : Option Nat) :
    List AsyncTS → Int × List AsyncTS
  | [] => (0, [])
  | t :: rest =>
    if t.thread_id ≠ id then
      let r := PyThreadState_SetAsyncExc id exc rest
      (r.1, t :: r.2)
    else
      (1, { t with async_exc := exc } :: rest)

/-! ## random.c: lcg_urandom / _PyRandom_Init (lines 364-450) -/

/-- One step of the LCG, on a C `unsigned int`:
`x = x * 214013 + 2531011` modulo `2^32`. -/
def lcg_step (x : Nat) : Nat := (x * 214013 + 2531011) % 4294967296

/-- The `n`-th state of the LCG seeded with `x0`. -/
def lcg_state (x0 : Nat) : Nat → Nat
  | 0 => x0
  | n + 1 => lcg_step (lcg_state x0 n)

/-- The byte-emitting loop of `lcg_urandom`: update `x`, then emit
`(x >> 16) & 0xff`. -/
def lcg_loop : Nat → Nat → List Nat
  | _, 0 => []
  | x, size + 1 =>
      let x := lcg_step x
      (x / 65536 % 256) :: lcg_loop x size

/-- `lcg_urandom(x0, buffer, size)`. -/
def lcg_urandom (x0 size : Nat) : List Nat := lcg_loop x0 size

/-- The `PYTHONHASHSEED`-is-an-integer branch of `_PyRandom_Init`: a parsed
seed above 4294967295 is a fatal error (`none`); seed 0 zeroes the whole
secret; any other accepted seed expands through `lcg_urandom`.
(`strtoul` parsing and the `errno == ERANGE` double-check are outside the
integer-seed model; on LP64 the guard is exactly `seed > 4294967295UL`.) -/
def pyRandomInit (seed : Nat) (secretSize : Nat) : Option (List Nat) :=
  if 4294967295 < seed then none
  else if seed = 0 then some (List.replicate secretSize 0)
  else some (lcg_urandom seed secretSize)

/-- The claim's description of the secret, written independently of the
generating loop: byte `i` (0-based) is bits 23..16 of the `(i+1)`-st state
of the LCG. -/
def lcgBytes (x0 : Nat) : Nat → List Nat
  | 0 => []
  | n + 1 => lcgBytes x0 n ++ [lcg_state x0 (n + 1) / 65536 % 256]

/-! ## pytime.c: _PyTime_RoundTowardsPosInf / _PyTime_Multiply
(lines 161-167, 288-316) -/

/-- The rounding modes the specification names.  (The `_PyTime_round_t` enum
lives in a header outside this tree; pytime.c itself only ever distinguishes
`_PyTime_ROUND_FLOOR` and `_PyTime_ROUND_UP`.)
Modelled from the spec: "explicit rounding modes {floor, ceil, half_even,
up}". -/
inductive PyTimeRound : Type where
  | floor : PyTimeRound
  | ceil : PyTimeRound
  | half_even : PyTimeRound
  | up : PyTimeRound
  deriving DecidableEq, Repr

/-- `_PyTime_RoundTowardsPosInf(is_neg, round)`:
`FLOOR` never rounds towards +inf; otherwise `(round == UP) ^ is_neg`. -/
def pytime_RoundTowardsPosInf (is_neg : Bool) (round : PyTimeRound) : Bool :=
  if round = .floor then false
  else xor (round = .up) is_neg

/-- Two's-complement wraparound of a C `int64_t` (`_PyTime_t`) result:
`9223372036854775808 = 2^63` and `18446744073709551616 = 2^64`. -/
def wrap64 (x : Int) : Int :=
  (x + 9223372036854775808) % 18446744073709551616 - 9223372036854775808

/-- `_PyTime_Multiply(t, multiply, round)`.  C's `/` on signed integers
truncates towards zero (`Int.tdiv`); the additions and multiplications are
`_PyTime_t` (int64) arithmetic with no overflow guard, so the intermediate
`t + k - 1` of the round-up path and the `t * k` of the scale-up path wrap
(`wrap64`).  The divisions cannot overflow (`k > 0` and `|t / k| ≤ |t|`). -/
def pytime_Multiply (t : Int) (multiply : Nat) (round : PyTimeRound) : Int :=
  if multiply < 1000000000 then
    let k : Int := (1000000000 : Int).tdiv multiply
    if pytime_RoundTowardsPosInf (decide (t < 0)) round then
      (wrap64 (t + k - 1)).tdiv k
    else
      t.tdiv k
  else
    wrap64 (t * ((multiply : Int).tdiv 1000000000))

/-- `_PyTime_AsMilliseconds(t, round)`. -/
def pytime_AsMilliseconds (t : Int) (round : PyTimeRound) : Int :=
  pytime_Multiply t 1000 round

/-- `_PyTime_AsMicroseconds(t, round)`. -/
def pytime_AsMicroseconds (t : Int) (round : PyTimeRound) : Int :=
  pytime_Multiply t (1000 * 1000) round

/-! ## pystate.c: the chunked frame stack
(`allocate_chunk` line 1342, `push_chunk` line 2476,
`_PyThreadState_PushFrame` line 2501, `_PyThreadState_PopFrame` line 2513)

Address arithmetic is modelled in `PyObject*` slot units.  A chunk is its
slot capacity plus the saved high-water mark (`_PyStackChunk.top`); `chunks`
lists the thread state's chunks with `datastack_chunk` first, so a chunk's
`previous` pointer is `NULL` exactly when it is the last element.  A frame
pointer is the pair (chunk depth counted from the root, base slot index):
two live frames are at the same address iff these pairs coincide. -/

/-- `DATA_STACK_CHUNK_SIZE (16*1024)` bytes, in 8-byte `PyObject*` slots. -/
def DATA_STACK_CHUNK_SLOTS : Nat := 2048

def MINIMUM_OVERHEAD : Nat := 1000

structure StackChunk : Type where
  cap : Nat
  top : Nat
  deriving DecidableEq, Repr

structure FrameStack : Type where
  /-- `datastack_chunk` and the chain of `previous` chunks; `[]` is the
  fresh thread state's `NULL`. -/
  chunks : List StackChunk
  /-- `datastack_top`, as a slot index into the current chunk's data. -/
  top : Nat
  /-- `datastack_limit`, as a slot count of the current chunk. -/
  limit : Nat
  deriving DecidableEq, Repr

/-- A frame pointer: chunk depth from the root (the root chunk is depth 1)
and the base slot index inside that chunk. -/
abbrev FrameRef := Nat × Nat

/-- The `while (allocate_size < ...) allocate_size *= 2;` loop of
`push_chunk`, in slots: doubling from a positive start, `need` iterations
always suffice, so the first argument is structural fuel covering that
bound. -/
def growLoop : Nat → Nat → Nat → Nat
  | 0, a, _ => a
  | fuel + 1, a, need => if a < need then growLoop fuel (2 * a) need else a

def growSize (a need : Nat) : Nat := growLoop need a need

/-- `push_chunk(tstate, size)`: double the allocation until the frame plus
`MINIMUM_OVERHEAD` fits, save the outgoing chunk's high-water mark, install
the new chunk, and start the first frame at `data[new->previous == NULL]` —
index 1 for the root chunk, 0 otherwise. -/
def push_chunk (s : FrameStack) (size : Nat) : FrameStack × FrameRef :=
  let allocate := growSize DATA_STACK_CHUNK_SLOTS (size + MINIMUM_OVERHEAD)
  let chunks := match s.chunks with
    | [] => []
    | cur :: rest => { cur with top := s.top } :: rest
  let base : Nat := if chunks = [] then 1 else 0
  ({ chunks := { cap := allocate, top := 0 } :: chunks
     top := base + size
     limit := allocate },
   (chunks.length + 1, base))

/-- `_PyThreadState_HasStackSpace(tstate, size)`.
Modelled from the spec: the header defining it is not in this tree; §4.5
says "if current chunk has room, bump `datastack_top`", and room means the
frame fits under `datastack_limit` with a non-NULL `datastack_top`. -/
def hasStackSpace (s : FrameStack) (size : Nat) : Bool :=
  !s.chunks.isEmpty && s.top + size ≤ s.limit

/-- `_PyThreadState_PushFrame(tstate, size)`. -/
def pushFrame (s : FrameStack) (size : Nat) : FrameStack × FrameRef :=
  if hasStackSpace s size then
    ({ s with top := s.top + size }, (s.chunks.length, s.top))
  else
    push_chunk s size

/-- `_PyThreadState_PopFrame(tstate, frame)`: if the frame sits at
`data[0]` of the current chunk, free that chunk and restore the previous
one (`assert(previous)` — `none` models that assertion firing, as does the
`assert(tstate->datastack_chunk)` on entry); otherwise just lower
`datastack_top` to the frame's base. -/
def popFrame (s : FrameStack) (f : FrameRef) : Option FrameStack :=
  match s.chunks with
  | [] => none
  | _ :: rest =>
    if f = (s.chunks.length, 0) then
      match rest with
      | [] => none        -- assert(previous) would fail: freeing the root
      | prev :: rest' =>
          some { chunks := prev :: rest', top := prev.top, limit := prev.cap }
    else
      some { s with top := f.2 }

/-- A well-nested client of the frame stack: a sequence of pushes (with the
frame's slot size, at least one slot) and pops (always of the most recently
pushed, not-yet-popped frame). -/
inductive FrameOp : Type where
  | push : Nat → FrameOp
  | pop : FrameOp
  deriving DecidableEq, Repr

/-- Run a well-nested op sequence from a state and the LIFO stack of live
frame pointers.  `none` means either an ill-formed sequence (a pop with no
live frame, or a pushed frame of zero slots) or a firing of one of
`_PyThreadState_PopFrame`'s assertions. -/
def runFrames (s : FrameStack) (live : List FrameRef) :
    List FrameOp → Option (FrameStack × List FrameRef)
  | [] => some (s, live)
  | .push size :: ops =>
      if size = 0 then none
      else
        let r := pushFrame s size
        runFrames r.1 (r.2 :: live) ops
  | .pop :: ops =>
      match live with
      | [] => none
      | f :: live' =>
          match popFrame s f with
          | none => none
          | some s' => runFrames s' live' ops

/-- Well-nestedness of an op sequence, relative to the number of live
frames: every pop has a matching earlier push, and every pushed frame
occupies at least one slot. -/
def balanced : List FrameOp → Nat → Bool
  | [], _ => true
  | .push size :: ops, d => decide (size ≠ 0) && balanced ops (d + 1)
  | .pop :: ops, d => decide (d ≠ 0) && balanced ops (d - 1)

/-- Ordering of live frame pointers, most recent first: a newer frame `f`
lies in a strictly newer chunk than an older frame `g`, or higher up in the
same chunk. -/
abbrev FrameRel (f g : FrameRef) : Prop :=
  g.1 < f.1 ∨ (g.1 = f.1 ∧ g.2 < f.2)

/-- Saved high-water marks of the non-current chunks.  `cs` are the chunks
below the current one, oldest last, whose depths are `d, d-1, ..., 1`; each
saved `top` lies strictly above every live frame of its chunk, and the root
chunk's saved `top` skips slot 0. -/
def SavedTopsOK (live : List FrameRef) : List StackChunk → Nat → Prop
  | [], d => d = 0
  | c :: cs, d =>
      (∀ f ∈ live, f.1 = d → f.2 < c.top) ∧ (d = 1 → 1 ≤ c.top) ∧
      SavedTopsOK live cs (d - 1)

/-- The safety invariant tying a frame-stack state to the LIFO list of live
frame pointers:
frame depths are in range; frames are ordered (`FrameRel`); every non-root
chunk's deepest frame sits at slot 0 and is live; live root-chunk frames
never sit at slot 0; the most recent frame is in the current chunk below
`datastack_top` (and with no live frames there is at most the root chunk,
whose `datastack_top` skips slot 0); and the saved tops of the older chunks
are consistent. -/
def FSInv (s : FrameStack) (live : List FrameRef) : Prop :=
  (∀ f ∈ live, 1 ≤ f.1 ∧ f.1 ≤ s.chunks.length) ∧
  List.Pairwise FrameRel live ∧
  (∀ d, 2 ≤ d → d ≤ s.chunks.length → (d, 0) ∈ live) ∧
  (∀ f ∈ live, f.1 = 1 → 1 ≤ f.2) ∧
  (match live with
   | [] => s.chunks.length ≤ 1 ∧ (s.chunks.length = 1 → 1 ≤ s.top)
   | f :: _ => f.1 = s.chunks.length ∧ f.2 < s.top) ∧
  SavedTopsOK live s.chunks.tail (s.chunks.length - 1)

/-! ## Concrete fixtures used by witnesses and counterexamples -/

/-- A heap with no objects of interest. -/
def emptyHeap : Heap :=
  { refcnt := fun _ => 0, children := fun _ => [],
    hasFinalizer := fun _ => false, clearDies := fun _ => true }

/-- The two-object reference cycle of claim C2: object 0 is A (with a
`__del__` finalizer), object 1 is B; each holds the only reference to the
other, so there are no references from outside the cycle. -/
def cycleHeap : Heap :=
  { refcnt := fun o => if o ≤ 1 then 1 else 0
    children := fun o => if o = 0 then [1] else if o = 1 then [0] else []
    hasFinalizer := fun o => o = 0
    clearDies := fun _ => true }

/-- Generation state holding the A/B cycle in generation 0, with default
thresholds and no debug flags. -/
def cycleState : GCState :=
  { g0 := ⟨[0, 1], 700, 2⟩, g1 := ⟨[], 10, 0⟩, g2 := ⟨[], 10, 0⟩
    enabled := true, collecting := false, errOccurred := false
    garbage := [], debug := 0, st := fun _ => .reachable }

/-- Three tracked objects for claim C1: objects 0 and 1 form a cycle holding
the only reference to each other, while object 2's single reference comes
from outside the young list. -/
def triadHeap : Heap :=
  { refcnt := fun o => if o ≤ 2 then 1 else 0
    children := fun o => if o = 0 then [1] else if o = 1 then [0] else []
    hasFinalizer := fun _ => false
    clearDies := fun _ => true }

/-- A state in which a collection is already in progress. -/
def collectingState : GCState :=
  { g0 := ⟨[4], 700, 1⟩, g1 := ⟨[], 10, 0⟩, g2 := ⟨[], 10, 0⟩
    enabled := true, collecting := true, errOccurred := false
    garbage := [], debug := 0, st := fun _ => .reachable }

/-- A state with a pending exception in which generation 0 is about to cross
its (nonzero) threshold while automatic collection is enabled and no
collection is in progress. -/
def pendingErrState : GCState :=
  { g0 := ⟨[7], 1, 1⟩, g1 := ⟨[], 10, 0⟩, g2 := ⟨[], 10, 0⟩
    enabled := true, collecting := false, errOccurred := true
    garbage := [], debug := 0, st := fun _ => .reachable }

/-- A state with no pending exception in which generation 0 is about to
cross its (nonzero) threshold while automatic collection is enabled and no
collection is in progress: the next tracked allocation triggers a
collection. -/
def mallocState : GCState :=
  { g0 := ⟨[7], 1, 1⟩, g1 := ⟨[], 10, 0⟩, g2 := ⟨[], 10, 0⟩
    enabled := true, collecting := false, errOccurred := false
    garbage := [], debug := 0, st := fun _ => .reachable }

/-! # Theorems -/

/-! ## Claim C9: gc.collect during a collection -/

/-- C9: if the `collecting` flag is set, the module-level `gc.collect`
returns 0 and leaves the entire collector state — generation lists, counts,
flags, `gc.garbage` and every object's `gc_refs` — unchanged. -/
theorem gc_collect_while_collecting (H : Heap) (s : GCState)
    (h : s.collecting = true) : gc_collect H s = (0, s) := by
  simp [gc_collect, h]

theorem gc_collect_while_collecting_w :
    gc_collect emptyHeap collectingState = (0, collectingState) :=
  gc_collect_while_collecting emptyHeap collectingState rfl

/-! ## Claim C10: PyThreadState_SetAsyncExc -/

theorem setAsyncExc_none_match (id : Nat) (exc : Option Nat) :
    ∀ ts : List AsyncTS, (∀ t ∈ ts, t.thread_id ≠ id) →
      PyThreadState_SetAsyncExc id exc ts = (0, ts)
  | [], _ => rfl
  | t :: rest, h => by
    have ht : t.thread_id ≠ id := h t (List.mem_cons_self t rest)
    have hr := setAsyncExc_none_match id exc rest
      (fun u hu => h u (List.mem_cons_of_mem t hu))
    simp [PyThreadState_SetAsyncExc, ht, hr]

theorem setAsyncExc_first_match (id : Nat) (exc : Option Nat) :
    ∀ (pre : List AsyncTS) (t : AsyncTS) (post : List AsyncTS),
      (∀ u ∈ pre, u.thread_id ≠ id) → t.thread_id = id →
      PyThreadState_SetAsyncExc id exc (pre ++ t :: post) =
        (1, pre ++ { t with async_exc := exc } :: post)
  | [], t, post, _, ht => by
    simp [PyThreadState_SetAsyncExc, ht]
  | u :: pre, t, post, h, ht => by
    have hu : u.thread_id ≠ id := h u (List.mem_cons_self u pre)
    have hr := setAsyncExc_first_match id exc pre t post
      (fun v hv => h v (List.mem_cons_of_mem u hv)) ht
    simp [PyThreadState_SetAsyncExc, hu, hr]

/-- C10: `PyThreadState_SetAsyncExc(id, exc)` updates the first thread state
of the list whose OS thread id equals `id`, replacing its pending async
exception by `exc` (which may be `none`, clearing it) and returning 1, with
every other thread state untouched; when no thread state matches it returns 0
and the list is unchanged. -/
theorem set_async_exc_spec (id : Nat) (exc : Option Nat) (ts : List AsyncTS) :
    ((∀ t ∈ ts, t.thread_id ≠ id) →
      PyThreadState_SetAsyncExc id exc ts = (0, ts)) ∧
    (∀ (pre : List AsyncTS) (t : AsyncTS) (post : List AsyncTS),
      ts = pre ++ t :: post → (∀ u ∈ pre, u.thread_id ≠ id) →
      t.thread_id = id →
      PyThreadState_SetAsyncExc id exc ts =
        (1, pre ++ { t with async_exc := exc } :: post)) :=
  ⟨setAsyncExc_none_match id exc ts,
   fun pre t post hts hpre ht => hts ▸ setAsyncExc_first_match id exc pre t post hpre ht⟩

theorem set_async_exc_w :
    PyThreadState_SetAsyncExc 5 (some 9) [⟨3, none⟩, ⟨5, some 2⟩, ⟨7, none⟩] =
      (1, [⟨3, none⟩, ⟨5, some 9⟩, ⟨7, none⟩]) :=
  (set_async_exc_spec 5 (some 9) _).2 [⟨3, none⟩] ⟨5, some 2⟩ [⟨7, none⟩]
    rfl (by decide) rfl

/-! ## Claim C4: nested PyGILState_Ensure / PyGILState_Release -/

/-- Inner stretch of a nest: with the GIL held and a positive counter,
an ensure/release pair (and any nest of them) is the identity. -/
theorem gilNest_attached : ∀ (M : Nat) (c : Int), 1 ≤ c →
    gilNest M ⟨some c, true⟩ = some ⟨some c, true⟩
  | 0, _, _ => rfl
  | M + 1, c, hc => by
    show (gilNest M ⟨some (c + 1), true⟩).bind (PyGILState_Release .locked) = _
    rw [gilNest_attached M (c + 1) (by omega)]
    show PyGILState_Release .locked ⟨some (c + 1), true⟩ = _
    simp only [PyGILState_Release, Bool.not_true, Bool.false_eq_true, if_false,
      Int.add_sub_cancel]
    rw [if_neg (by omega : ¬(c = 0))]
    rfl

/-- C4: for every `N ≥ 1`, `N` nested `PyGILState_Ensure` calls followed by
the `N` matching `PyGILState_Release` calls on one OS thread restore exactly
the entry state: the bound thread state (if any) keeps its entry
`gilstate_counter`, the GIL-holding status is as before the outermost
ensure, and when the outermost ensure auto-created the thread state
(counter set to 0 before the increment), the final release observes the
counter reach 0 and clears and deletes it, unbinding the TSS slot and
releasing the GIL (`tss = none`, `current = false` — the entry state). -/
theorem gilstate_nested_ensure_release (N : Nat) (s : GilS) (hN : 1 ≤ N)
    (hc : ∀ c, s.tss = some c → 1 ≤ c) (hn : s.tss = none → s.current = false) :
    gilNest N s = some s := by
  obtain ⟨M, rfl⟩ : ∃ M, N = M + 1 := ⟨N - 1, by omega⟩
  obtain ⟨tss, cur⟩ := s
  cases tss with
  | none =>
      have hcur : cur = false := hn rfl
      subst hcur
      show (gilNest M ⟨some 1, true⟩).bind (PyGILState_Release .unlocked) = _
      rw [gilNest_attached M 1 (by omega)]
      rfl
  | some c =>
      have hc1 : 1 ≤ c := hc c rfl
      cases cur with
      | true =>
          show (gilNest M ⟨some (c + 1), true⟩).bind (PyGILState_Release .locked) = _
          rw [gilNest_attached M (c + 1) (by omega)]
          show PyGILState_Release .locked ⟨some (c + 1), true⟩ = _
          simp only [PyGILState_Release, Bool.not_true, Bool.false_eq_true, if_false,
            Int.add_sub_cancel]
          rw [if_neg (by omega : ¬(c = 0))]
          rfl
      | false =>
          show (gilNest M ⟨some (c + 1), true⟩).bind (PyGILState_Release .unlocked) = _
          rw [gilNest_attached M (c + 1) (by omega)]
          show PyGILState_Release .unlocked ⟨some (c + 1), true⟩ = _
          simp only [PyGILState_Release, Bool.not_true, Bool.false_eq_true, if_false,
            Int.add_sub_cancel]
          rw [if_neg (by omega : ¬(c = 0))]
          rfl

theorem gilstate_nested_ensure_release_w :
    gilNest 2 ⟨none, false⟩ = some ⟨none, false⟩ :=
  gilstate_nested_ensure_release 2 ⟨none, false⟩ (by omega)
    (fun _ h => nomatch h) (fun _ => rfl)

/-! ## Claim C6: lock-allocation failure during _PyRuntimeState_Init -/

/-- C6 (evaluation at the failing input): when the second lock allocation
fails, `alloc_for_runtime` does free the already-allocated lock (slot 0 ends
up `none` again) but still returns 0, so `_PyRuntimeState_Init` does **not**
return `no_memory` — it carries on and reports success with every lock slot
empty.  The spec (and the dead `!= 0` check at pystate.c line 470, and the
`assert(locks[i] != NULL)` in `init_runtime`) require a `no_memory`
failure here. -/
theorem runtime_init_lock_failure_eval :
    alloc_for_runtime (fun i => decide (i = 0)) =
      (List.replicate NUMLOCKS none, 0) ∧
    PyRuntimeState_Init (fun i => decide (i = 0)) true true =
      (PyStatus.ok, List.replicate NUMLOCKS none) := by decide

/-! ## Claim C7: hash-secret initialization from the seed -/

theorem lcg_state_zero (x : Nat) : lcg_state x 0 = x := rfl

theorem lcg_state_succ (x n : Nat) :
    lcg_state x (n + 1) = lcg_step (lcg_state x n) := rfl

theorem lcg_loop_zero (x : Nat) : lcg_loop x 0 = [] := rfl

theorem lcg_loop_succ (x n : Nat) :
    lcg_loop x (n + 1) = (lcg_step x / 65536 % 256) :: lcg_loop (lcg_step x) n := rfl

theorem lcgBytes_zero (x : Nat) : lcgBytes x 0 = [] := rfl

theorem lcgBytes_succ (x n : Nat) :
    lcgBytes x (n + 1) = lcgBytes x n ++ [lcg_state x (n + 1) / 65536 % 256] := rfl

theorem lcg_state_step (x : Nat) (m : Nat) :
    lcg_state (lcg_step x) m = lcg_state x (m + 1) := by
  induction m with
  | zero => rw [lcg_state_zero, lcg_state_succ, lcg_state_zero]
  | succ m ih => rw [lcg_state_succ (lcg_step x) m, ih, lcg_state_succ x (m + 1)]

theorem lcg_loop_snoc (n : Nat) : ∀ x : Nat,
    lcg_loop x (n + 1) = lcg_loop x n ++ [lcg_state x (n + 1) / 65536 % 256] := by
  induction n with
  | zero =>
      intro x
      rw [lcg_loop_succ x 0, lcg_loop_zero x, lcg_loop_zero (lcg_step x),
        lcg_state_succ x 0, lcg_state_zero, List.nil_append]
  | succ n ih =>
      intro x
      rw [lcg_loop_succ x (n + 1), ih (lcg_step x), lcg_state_step x (n + 1),
        lcg_loop_succ x n, List.cons_append]

theorem lcg_loop_eq_lcgBytes (n : Nat) : ∀ x : Nat, lcg_loop x n = lcgBytes x n := by
  induction n with
  | zero => intro x; rw [lcg_loop_zero, lcgBytes_zero]
  | succ n ih => intro x; rw [lcg_loop_snoc n x, ih x, lcgBytes_succ]

/-- C7: hash-secret initialization from an integer `PYTHONHASHSEED`:
seed 0 zeroes every secret byte; every seed up to `2^32 - 1` is accepted
while `2^32` and above are rejected; and an accepted nonzero seed fills the
secret deterministically, byte `i` being bits 23..16 of the `(i+1)`-st state
of the LCG `x(n+1) = (x(n) * 214013 + 2531011) mod 2^32` seeded with the
seed. -/
theorem random_init_hashseed (sz : Nat) :
    (pyRandomInit 0 sz = some (List.replicate sz 0)) ∧
    (∀ seed : Nat, seed ≤ 4294967295 → (pyRandomInit seed sz).isSome) ∧
    (∀ seed : Nat, 4294967296 ≤ seed → pyRandomInit seed sz = none) ∧
    (∀ seed : Nat, 0 < seed → seed ≤ 4294967295 →
      pyRandomInit seed sz = some (lcgBytes seed sz)) := by
  refine ⟨?_, fun seed hle => ?_, fun seed hge => ?_, fun seed hpos hle => ?_⟩
  · rw [pyRandomInit, if_neg (by omega), if_pos rfl]
  · rw [pyRandomInit, if_neg (by omega)]
    split <;> simp
  · rw [pyRandomInit, if_pos (by omega)]
  · rw [pyRandomInit, if_neg (by omega), if_neg (by omega),
      lcg_urandom, lcg_loop_eq_lcgBytes]

theorem random_init_hashseed_w :
    pyRandomInit 0 4 = some [0, 0, 0, 0] ∧
    (pyRandomInit 4294967295 4).isSome ∧
    pyRandomInit 4294967296 4 = none ∧
    pyRandomInit 1 2 = some (lcgBytes 1 2) :=
  ⟨(random_init_hashseed 4).1,
   (random_init_hashseed 4).2.1 4294967295 (by omega),
   (random_init_hashseed 4).2.2.1 4294967296 (by omega),
   (random_init_hashseed 2).2.2.2 1 (by omega) (by omega)⟩

/-! ## Claim C8: nanosecond-to-millisecond/microsecond rounding -/

/-- C's truncating division, written through the floor division of the
magnitude. -/
theorem tdiv_as_fdiv (t k : Int) (hk : 0 < k) :
    t.tdiv k = if 0 ≤ t then t.fdiv k else -((-t).fdiv k) := by
  split
  · next ht => rw [Int.tdiv_eq_ediv ht (le_of_lt hk), Int.fdiv_eq_ediv _ (le_of_lt hk)]
  · next ht =>
      have h1 : t.tdiv k = -((-t).tdiv k) := by rw [Int.neg_tdiv, neg_neg]
      rw [h1, Int.tdiv_eq_ediv (by omega) (le_of_lt hk),
        Int.fdiv_eq_ediv _ (le_of_lt hk)]

/-- `(t + k - 1) / k` with C's truncating division is the ceiling of `t / k`
for nonnegative `t`. -/
theorem tdiv_add_pred_eq_ceil (t k : Int) (hk : 0 < k) (ht : 0 ≤ t) :
    (t + k - 1).tdiv k = -((-t).fdiv k) := by
  rw [Int.tdiv_eq_ediv (by omega) (le_of_lt hk), Int.fdiv_eq_ediv _ (le_of_lt hk)]
  have hq := Int.emod_add_ediv t k
  have hr0 : 0 ≤ t % k := Int.emod_nonneg t (by omega)
  have hrk : t % k < k := Int.emod_lt_of_pos t hk
  set q := t / k with hq_def
  set r := t % k with hr_def
  have hcm : k * q = q * k := mul_comm k q
  have hb1 : -q * k = -(q * k) := by ring
  have hb2 : (q + 1) * k = q * k + k := by ring
  have hb3 : (-q - 1) * k = -(q * k) - k := by ring
  rcases eq_or_lt_of_le hr0 with hr | hr
  · have hteq : t + k - 1 = (k - 1) + q * k := by omega
    have hmeq : -t = 0 + -q * k := by omega
    rw [hteq, Int.add_mul_ediv_right _ _ (by omega : k ≠ 0),
      hmeq, Int.add_mul_ediv_right _ _ (by omega : k ≠ 0),
      Int.ediv_eq_zero_of_lt (by omega) (by omega),
      Int.ediv_eq_zero_of_lt (by omega) (by omega)]
    omega
  · have hteq : t + k - 1 = (r - 1) + (q + 1) * k := by omega
    have hmeq : -t = (k - r) + (-q - 1) * k := by omega
    rw [hteq, Int.add_mul_ediv_right _ _ (by omega : k ≠ 0),
      hmeq, Int.add_mul_ediv_right _ _ (by omega : k ≠ 0),
      Int.ediv_eq_zero_of_lt (by omega) (by omega),
      Int.ediv_eq_zero_of_lt (by omega) (by omega)]
    omega

theorem pytime_RTPI_floor : ∀ b, pytime_RoundTowardsPosInf b .floor = false := by
  decide

theorem pytime_RTPI_up : ∀ b, pytime_RoundTowardsPosInf b .up = !b := by decide

theorem wrap64_eq_self (x : Int) (h1 : -9223372036854775808 ≤ x)
    (h2 : x < 9223372036854775808) : wrap64 x = x := by
  unfold wrap64
  omega

theorem wrap64_high (x : Int) (h1 : 9223372036854775808 ≤ x)
    (h2 : x < 18446744073709551616) : wrap64 x = x - 18446744073709551616 := by
  unfold wrap64
  omega

theorem pytime_ms_floor_tdiv (t : Int) :
    pytime_AsMilliseconds t .floor = t.tdiv 1000000 := by
  simp only [pytime_AsMilliseconds, pytime_Multiply, pytime_RTPI_floor,
    Bool.false_eq_true, if_false]
  norm_num
  congr 1

theorem pytime_ms_up_nonneg (t : Int) (ht : 0 ≤ t) :
    pytime_AsMilliseconds t .up = (wrap64 (t + 1000000 - 1)).tdiv 1000000 := by
  have hd : decide (t < 0) = false := decide_eq_false (not_lt.mpr ht)
  simp only [pytime_AsMilliseconds, pytime_Multiply, pytime_RTPI_up, hd,
    Bool.not_false, if_true]
  norm_num
  congr 1

theorem pytime_ms_up_neg (t : Int) (ht : t < 0) :
    pytime_AsMilliseconds t .up = t.tdiv 1000000 := by
  have hd : decide (t < 0) = true := decide_eq_true ht
  simp only [pytime_AsMilliseconds, pytime_Multiply, pytime_RTPI_up, hd,
    Bool.not_true, Bool.false_eq_true, if_false]
  norm_num
  congr 1

theorem pytime_us_floor_tdiv (t : Int) :
    pytime_AsMicroseconds t .floor = t.tdiv 1000 := by
  simp only [pytime_AsMicroseconds, pytime_Multiply, pytime_RTPI_floor,
    Bool.false_eq_true, if_false]
  norm_num
  congr 1

theorem pytime_us_up_nonneg (t : Int) (ht : 0 ≤ t) :
    pytime_AsMicroseconds t .up = (wrap64 (t + 1000 - 1)).tdiv 1000 := by
  have hd : decide (t < 0) = false := decide_eq_false (not_lt.mpr ht)
  simp only [pytime_AsMicroseconds, pytime_Multiply, pytime_RTPI_up, hd,
    Bool.not_false, if_true]
  norm_num
  congr 1

theorem pytime_us_up_neg (t : Int) (ht : t < 0) :
    pytime_AsMicroseconds t .up = t.tdiv 1000 := by
  have hd : decide (t < 0) = true := decide_eq_true ht
  simp only [pytime_AsMicroseconds, pytime_Multiply, pytime_RTPI_up, hd,
    Bool.not_true, Bool.false_eq_true, if_false]
  norm_num
  congr 1

/-- C8 counterexample: with rounding mode `floor`,
`_PyTime_AsMilliseconds(-1500000)` yields `-1`, not the
floor `-2 = ⌊-1.5⌋` the claim requires; with `half_even`,
`_PyTime_AsMilliseconds(1500000)` yields `1`, not the
nearest-even `2` the claim requires; and with `up`,
`_PyTime_AsMilliseconds(INT64_MAX)` computes `(t + 10^6 - 1) / 10^6` whose
int64 sum wraps negative, so the conversion silently returns the negative
`-9223372036853` instead of the rounded-up `9223372036855` — nothing
detects the overflow. -/
theorem pytime_rounding_cx :
    pytime_AsMilliseconds (-1500000) .floor = -1 ∧
    Int.fdiv (-1500000) 1000000 = -2 ∧
    pytime_AsMilliseconds 1500000 .half_even = 1 ∧
    pytime_AsMilliseconds 9223372036854775807 .up = -9223372036853 ∧
    -((-(9223372036854775807 : Int)).fdiv 1000000) = 9223372036855 := by decide

/-- C8 (amended): for every int64 timestamp `t`, the millisecond and
microsecond conversions accept every rounding-mode value, but implement only
two behaviors, and the round-up path has no overflow guard.  With mode
`floor` the result is `t` divided by the unit truncated **towards zero** (so
the floor only for nonnegative `t`); `half_even` rounding is not implemented
(`half_even`, `ceil` and `up` all fall into the same `(round == UP) ^
is_neg` branch).  With mode `up`, as long as the intermediate `t + k - 1`
stays below `2^63` the result is the ceiling (towards positive infinity);
but for `t` within `k - 1` of `INT64_MAX` that unguarded int64 sum wraps
around, and the conversion silently returns the truncated quotient of the
wrapped (negative) value instead of detecting overflow. -/
theorem pytime_ms_us_rounding (t : Int)
    (hlo : -9223372036854775808 ≤ t) (hhi : t < 9223372036854775808) :
    (pytime_AsMilliseconds t .floor =
      if 0 ≤ t then t.fdiv 1000000 else -((-t).fdiv 1000000)) ∧
    (t + 1000000 - 1 < 9223372036854775808 →
      pytime_AsMilliseconds t .up = -((-t).fdiv 1000000)) ∧
    (9223372036854775808 ≤ t + 1000000 - 1 →
      pytime_AsMilliseconds t .up =
        (t + 1000000 - 1 - 18446744073709551616).tdiv 1000000) ∧
    (pytime_AsMicroseconds t .floor =
      if 0 ≤ t then t.fdiv 1000 else -((-t).fdiv 1000)) ∧
    (t + 1000 - 1 < 9223372036854775808 →
      pytime_AsMicroseconds t .up = -((-t).fdiv 1000)) ∧
    (9223372036854775808 ≤ t + 1000 - 1 →
      pytime_AsMicroseconds t .up =
        (t + 1000 - 1 - 18446744073709551616).tdiv 1000) := by
  refine ⟨?_, ?_, ?_, ?_, ?_, ?_⟩
  · rw [pytime_ms_floor_tdiv]
    exact tdiv_as_fdiv t 1000000 (by norm_num)
  · intro hov
    rcases le_or_lt 0 t with ht | ht
    · rw [pytime_ms_up_nonneg t ht, wrap64_eq_self _ (by omega) hov]
      exact tdiv_add_pred_eq_ceil t 1000000 (by norm_num) ht
    · rw [pytime_ms_up_neg t ht, tdiv_as_fdiv t 1000000 (by norm_num),
        if_neg (not_le.mpr ht)]
  · intro hov
    have ht : 0 ≤ t := by omega
    rw [pytime_ms_up_nonneg t ht, wrap64_high _ hov (by omega)]
  · rw [pytime_us_floor_tdiv]
    exact tdiv_as_fdiv t 1000 (by norm_num)
  · intro hov
    rcases le_or_lt 0 t with ht | ht
    · rw [pytime_us_up_nonneg t ht, wrap64_eq_self _ (by omega) hov]
      exact tdiv_add_pred_eq_ceil t 1000 (by norm_num) ht
    · rw [pytime_us_up_neg t ht, tdiv_as_fdiv t 1000 (by norm_num),
        if_neg (not_le.mpr ht)]
  · intro hov
    have ht : 0 ≤ t := by omega
    rw [pytime_us_up_nonneg t ht, wrap64_high _ hov (by omega)]

theorem pytime_ms_us_rounding_w :
    (-9223372036854775808 ≤ (9223372036854775807 : Int) ∧
     (9223372036854775807 : Int) < 9223372036854775808) ∧
    ((pytime_AsMilliseconds 9223372036854775807 .floor =
        if 0 ≤ (9223372036854775807 : Int) then
          Int.fdiv 9223372036854775807 1000000
        else -((-(9223372036854775807 : Int)).fdiv 1000000)) ∧
      ((9223372036854775807 : Int) + 1000000 - 1 < 9223372036854775808 →
        pytime_AsMilliseconds 9223372036854775807 .up =
          -((-(9223372036854775807 : Int)).fdiv 1000000)) ∧
      (9223372036854775808 ≤ (9223372036854775807 : Int) + 1000000 - 1 →
        pytime_AsMilliseconds 9223372036854775807 .up =
          ((9223372036854775807 : Int) + 1000000 - 1 -
            18446744073709551616).tdiv 1000000) ∧
      (pytime_AsMicroseconds 9223372036854775807 .floor =
        if 0 ≤ (9223372036854775807 : Int) then
          Int.fdiv 9223372036854775807 1000
        else -((-(9223372036854775807 : Int)).fdiv 1000)) ∧
      ((9223372036854775807 : Int) + 1000 - 1 < 9223372036854775808 →
        pytime_AsMicroseconds 9223372036854775807 .up =
          -((-(9223372036854775807 : Int)).fdiv 1000)) ∧
      (9223372036854775808 ≤ (9223372036854775807 : Int) + 1000 - 1 →
        pytime_AsMicroseconds 9223372036854775807 .up =
          ((9223372036854775807 : Int) + 1000 - 1 -
            18446744073709551616).tdiv 1000)) :=
  ⟨⟨by decide, by decide⟩,
   pytime_ms_us_rounding 9223372036854775807 (by decide) (by decide)⟩

/-! ## Claim C2: the cycle with a finalizer -/

/-- C2 counterexample: on the A↔B cycle with a finalizer on A,
`collect(0)` does not return 0 and the `gc.garbage` list does not get
length 2. -/
theorem cycle_finalizer_cx :
    ¬((collect cycleHeap 0 cycleState).1 = 0 ∧
      (collect cycleHeap 0 cycleState).2.garbage.length = 2) := by decide

/-- C2 (amended): on the A↔B cycle with a finalizer on A, `collect(0)`
returns 2 (both objects are unreachable, and both are uncollectable), and
afterwards `gc.garbage` has length 1, containing only A — B, lacking a
`__del__` method, is kept alive in the next generation but is not surfaced
in `gc.garbage`. -/
theorem cycle_finalizer_amended :
    (collect cycleHeap 0 cycleState).1 = 2 ∧
    (collect cycleHeap 0 cycleState).2.garbage = [0] ∧
    (collect cycleHeap 0 cycleState).2.g1.lst = [0, 1] ∧
    (collect cycleHeap 0 cycleState).2.g0.lst = [] := by decide

/-! ## Claim C3: the allocation trigger -/

/-- C3 counterexample: in `pendingErrState` every condition named by the
claim holds — the bumped generation-0 count exceeds its nonzero threshold,
automatic collection is enabled and no collection is in progress — yet
because an exception is pending (`PyErr_Occurred()`, the condition the claim
omits), `_PyObject_GC_Malloc` triggers no collection: the count stays at 2
instead of being reset to 0 and the generation-0 list is untouched. -/
theorem malloc_trigger_cx :
    (pendingErrState.g0.threshold < pendingErrState.g0.count + 1 ∧
     pendingErrState.enabled = true ∧
     pendingErrState.g0.threshold ≠ 0 ∧
     pendingErrState.collecting = false) ∧
    (gc_malloc emptyHeap pendingErrState).g0.count = 2 ∧
    (gc_malloc emptyHeap pendingErrState).g0.lst = [7] := by decide

theorem dg_run_count0 (H : Heap) (dbg : Nat) : ∀ (fuel : Nat) (st : DGState),
    st.count0 = 0 → (dg_run H dbg fuel st).count0 = 0 := by
  intro fuel
  induction fuel with
  | zero => intro st h; exact h
  | succ n ih =>
      intro st h
      rw [dg_run]
      cases hc : st.collectable with
      | nil => exact h
      | cons o rest =>
          apply ih
          simp only [dg_step, hc, h]
          split
          · rfl
          · split
            · simp
            · rfl

theorem collect0_count0 (H : Heap) (s : GCState) :
    (collect H 0 s).2.g0.count = 0 := by
  simp [collect, delete_garbage, getGen, setGen, List.range_succ]
  exact dg_run_count0 H _ _ _ rfl

theorem collect1_count0 (H : Heap) (s : GCState) :
    (collect H 1 s).2.g0.count = 0 := by
  simp [collect, delete_garbage, getGen, setGen, List.range_succ]
  exact dg_run_count0 H _ _ _ rfl

theorem collect2_count0 (H : Heap) (s : GCState) :
    (collect H 2 s).2.g0.count = 0 := by
  simp [collect, delete_garbage, getGen, setGen, List.range_succ]
  exact dg_run_count0 H _ _ _ rfl

theorem collect1_count1 (H : Heap) (s : GCState) :
    (collect H 1 s).2.g1.count = 0 := rfl

theorem collect2_count1 (H : Heap) (s : GCState) :
    (collect H 2 s).2.g1.count = 0 := rfl

theorem collect2_count2 (H : Heap) (s : GCState) :
    (collect H 2 s).2.g2.count = 0 := rfl

theorem collect1_lst0 (H : Heap) (s : GCState) :
    (collect H 1 s).2.g0.lst = [] := rfl

theorem collect2_lst0 (H : Heap) (s : GCState) :
    (collect H 2 s).2.g0.lst = [] := rfl

theorem collect2_lst1 (H : Heap) (s : GCState) :
    (collect H 2 s).2.g1.lst = [] := rfl

/-- C3 (amended): when allocating a tracked object raises generation 0's
count above its nonzero threshold while automatic collection is enabled, no
collection is in progress *and no exception is pending* (the condition the
claim omits), `_PyObject_GC_Malloc` triggers a collection of exactly the
oldest generation `i` whose count exceeds its threshold: older generations
are not over threshold, the run is `collect(i)` under the `collecting` flag,
the younger generations' lists are left empty (they were merged into
generation `i`), and the counts of generations `0..i` are reset to zero. -/
theorem malloc_trigger_amended (H : Heap) (s : GCState)
    (h0 : s.g0.threshold < s.g0.count + 1) (hen : s.enabled = true)
    (hth : s.g0.threshold ≠ 0) (hcol : s.collecting = false)
    (herr : s.errOccurred = false) :
    ∃ i, i = oldestOver { s with g0 := { s.g0 with count := s.g0.count + 1 } } ∧
      (getGen { s with g0 := { s.g0 with count := s.g0.count + 1 } } i).threshold <
        (getGen { s with g0 := { s.g0 with count := s.g0.count + 1 } } i).count ∧
      (∀ j, i < j → j ≤ 2 →
        ¬((getGen { s with g0 := { s.g0 with count := s.g0.count + 1 } } j).threshold <
          (getGen { s with g0 := { s.g0 with count := s.g0.count + 1 } } j).count)) ∧
      gc_malloc H s =
        { (collect H i { s with g0 := { s.g0 with count := s.g0.count + 1 }, collecting := true }).2 with collecting := false } ∧
      (∀ j, j < i → (getGen (gc_malloc H s) j).lst = []) ∧
      (∀ j, j ≤ i → (getGen (gc_malloc H s) j).count = 0) := by
  have hmal : gc_malloc H s =
      { (collect_generations H { s with g0 := { s.g0 with count := s.g0.count + 1 }, collecting := true }).2 with collecting := false } := by
    simp only [gc_malloc]
    split
    · rfl
    · next hne => exact absurd ⟨h0, hen, hth, hcol, herr⟩ hne
  by_cases hc2 : s.g2.threshold < s.g2.count
  · have hcg : collect_generations H { s with g0 := { s.g0 with count := s.g0.count + 1 }, collecting := true } = collect H 2 { s with g0 := { s.g0 with count := s.g0.count + 1 }, collecting := true } := by
      show (if s.g2.threshold < s.g2.count then _ else _) = _
      rw [if_pos hc2]
    have hio : oldestOver { s with g0 := { s.g0 with count := s.g0.count + 1 } } = 2 := by
      show (if s.g2.threshold < s.g2.count then 2 else _) = 2
      rw [if_pos hc2]
    refine ⟨2, hio.symm, hc2, ?_, ?_, ?_, ?_⟩
    · intro j hj1 hj2
      omega
    · rw [hmal, hcg]
    · intro j hj
      rw [hmal, hcg]
      interval_cases j
      · exact collect2_lst0 H { s with g0 := { s.g0 with count := s.g0.count + 1 }, collecting := true }
      · exact collect2_lst1 H { s with g0 := { s.g0 with count := s.g0.count + 1 }, collecting := true }
    · intro j hj
      rw [hmal, hcg]
      interval_cases j
      · exact collect2_count0 H { s with g0 := { s.g0 with count := s.g0.count + 1 }, collecting := true }
      · exact collect2_count1 H { s with g0 := { s.g0 with count := s.g0.count + 1 }, collecting := true }
      · exact collect2_count2 H { s with g0 := { s.g0 with count := s.g0.count + 1 }, collecting := true }
  · by_cases hc1 : s.g1.threshold < s.g1.count
    · have hcg : collect_generations H { s with g0 := { s.g0 with count := s.g0.count + 1 }, collecting := true } = collect H 1 { s with g0 := { s.g0 with count := s.g0.count + 1 }, collecting := true } := by
        show (if s.g2.threshold < s.g2.count then _
          else if s.g1.threshold < s.g1.count then _ else _) = _
        rw [if_neg hc2, if_pos hc1]
      have hio : oldestOver { s with g0 := { s.g0 with count := s.g0.count + 1 } } = 1 := by
        show (if s.g2.threshold < s.g2.count then 2
          else if s.g1.threshold < s.g1.count then 1 else 0) = 1
        rw [if_neg hc2, if_pos hc1]
      refine ⟨1, hio.symm, hc1, ?_, ?_, ?_, ?_⟩
      · intro j hj1 hj2
        interval_cases j
        exact hc2
      · rw [hmal, hcg]
      · intro j hj
        interval_cases j
        rw [hmal, hcg]
        exact collect1_lst0 H { s with g0 := { s.g0 with count := s.g0.count + 1 }, collecting := true }
      · intro j hj
        rw [hmal, hcg]
        interval_cases j
        · exact collect1_count0 H { s with g0 := { s.g0 with count := s.g0.count + 1 }, collecting := true }
        · exact collect1_count1 H { s with g0 := { s.g0 with count := s.g0.count + 1 }, collecting := true }
    · have hcg : collect_generations H { s with g0 := { s.g0 with count := s.g0.count + 1 }, collecting := true } = collect H 0 { s with g0 := { s.g0 with count := s.g0.count + 1 }, collecting := true } := by
        show (if s.g2.threshold < s.g2.count then _
          else if s.g1.threshold < s.g1.count then _
          else if s.g0.threshold < s.g0.count + 1 then _ else _) = _
        rw [if_neg hc2, if_neg hc1, if_pos h0]
      have hio : oldestOver { s with g0 := { s.g0 with count := s.g0.count + 1 } } = 0 := by
        show (if s.g2.threshold < s.g2.count then 2
          else if s.g1.threshold < s.g1.count then 1 else 0) = 0
        rw [if_neg hc2, if_neg hc1]
      refine ⟨0, hio.symm, h0, ?_, ?_, ?_, ?_⟩
      · intro j hj1 hj2
        interval_cases j
        · exact hc1
        · exact hc2
      · rw [hmal, hcg]
      · intro j hj
        omega
      · intro j hj
        interval_cases j
        rw [hmal, hcg]
        exact collect0_count0 H { s with g0 := { s.g0 with count := s.g0.count + 1 }, collecting := true }

theorem malloc_trigger_amended_w :
    (mallocState.g0.threshold < mallocState.g0.count + 1 ∧
     mallocState.enabled = true ∧ mallocState.g0.threshold ≠ 0 ∧
     mallocState.collecting = false ∧ mallocState.errOccurred = false) ∧
    (∃ i, i = oldestOver { mallocState with g0 := { mallocState.g0 with count := mallocState.g0.count + 1 } } ∧
      (getGen { mallocState with g0 := { mallocState.g0 with count := mallocState.g0.count + 1 } } i).threshold <
        (getGen { mallocState with g0 := { mallocState.g0 with count := mallocState.g0.count + 1 } } i).count ∧
      (∀ j, i < j → j ≤ 2 →
        ¬((getGen { mallocState with g0 := { mallocState.g0 with count := mallocState.g0.count + 1 } } j).threshold <
          (getGen { mallocState with g0 := { mallocState.g0 with count := mallocState.g0.count + 1 } } j).count)) ∧
      gc_malloc emptyHeap mallocState =
        { (collect emptyHeap i { mallocState with g0 := { mallocState.g0 with count := mallocState.g0.count + 1 }, collecting := true }).2 with collecting := false } ∧
      (∀ j, j < i → (getGen (gc_malloc emptyHeap mallocState) j).lst = []) ∧
      (∀ j, j ≤ i → (getGen (gc_malloc emptyHeap mallocState) j).count = 0)) :=
  ⟨⟨by decide, rfl, by decide, rfl, rfl⟩,
   malloc_trigger_amended emptyHeap mallocState (by decide) rfl (by decide) rfl rfl⟩

/-! ## Claim C1: update_refs, subtract_refs and move_unreachable -/

theorem count_pos_iff_mem (o : Nat) (l : List Nat) : 0 < l.count o ↔ o ∈ l :=
  List.count_pos_iff

theorem map_congr_mem (l : List Nat) (f g : Nat → Nat) (h : ∀ a ∈ l, f a = g a) :
    l.map f = l.map g := by
  induction l with
  | nil => rfl
  | cons a l ih =>
      rw [List.map_cons, List.map_cons, h a (List.mem_cons_self a l),
        ih (fun x hx => h x (List.mem_cons_of_mem a hx))]

theorem map_sum_le_map_sum (l : List Nat) (f g : Nat → Nat) (h : ∀ a ∈ l, f a ≤ g a) :
    (l.map f).sum ≤ (l.map g).sum := by
  induction l with
  | nil => exact le_refl _
  | cons a l ih =>
      rw [List.map_cons, List.map_cons, List.sum_cons, List.sum_cons]
      have h1 := h a (List.mem_cons_self a l)
      have h2 := ih (fun x hx => h x (List.mem_cons_of_mem a hx))
      omega

theorem map_sum_le_const (l : List Nat) (f : Nat → Nat) (k : Nat) (h : ∀ a ∈ l, f a ≤ k) :
    (l.map f).sum ≤ k * l.length := by
  induction l with
  | nil => simp
  | cons a l ih =>
      rw [List.map_cons, List.sum_cons, List.length_cons, Nat.mul_succ]
      have h1 := h a (List.mem_cons_self a l)
      have h2 := ih (fun x hx => h x (List.mem_cons_of_mem a hx))
      omega

theorem update_refs_not_mem (H : Heap) : ∀ (Y : List Nat) (st : Nat → St) (o : Nat),
    o ∉ Y → update_refs H Y st o = st o := by
  intro Y
  induction Y with
  | nil => intro st o _; rfl
  | cons y Y ih =>
      intro st o h
      have h1 : o ≠ y := fun he => h (he ▸ List.mem_cons_self y Y)
      have h2 : o ∉ Y := fun hm => h (List.mem_cons_of_mem y hm)
      show update_refs H Y (setSt st y (.refs (H.refcnt y))) o = st o
      rw [ih _ _ h2]
      exact setSt_other st _ h1

theorem update_refs_mem (H : Heap) : ∀ (Y : List Nat) (st : Nat → St) (o : Nat),
    o ∈ Y → update_refs H Y st o = .refs (H.refcnt o) := by
  intro Y
  induction Y with
  | nil => intro st o h; cases h
  | cons y Y ih =>
      intro st o h
      show update_refs H Y (setSt st y (.refs (H.refcnt y))) o = _
      by_cases hm : o ∈ Y
      · exact ih _ _ hm
      · have hoy : o = y := by
          rcases List.mem_cons.mp h with he | hm2
          · exact he
          · exact absurd hm2 hm
        rw [update_refs_not_mem H Y _ _ hm]
        subst hoy
        exact setSt_same st o _

theorem visit_decref_ne (st : Nat → St) (c o : Nat) (h : o ≠ c) :
    visit_decref st c o = st o := by
  cases hsc : st c with
  | untracked => simp only [visit_decref, hsc]
  | reachable => simp only [visit_decref, hsc]
  | tentUnreachable => simp only [visit_decref, hsc]
  | refs n =>
      cases n with
      | zero => simp only [visit_decref, hsc]
      | succ m =>
          simp only [visit_decref, hsc]
          exact setSt_other st _ h

theorem decref_fold_refs : ∀ (E : List Nat) (st : Nat → St) (o : Nat) (n : Nat),
    st o = .refs n → E.count o ≤ n →
    (E.foldl visit_decref st) o = .refs (n - E.count o) := by
  intro E
  induction E with
  | nil => intro st o n h _; simpa using h
  | cons c E ih =>
      intro st o n h hle
      by_cases hco : c = o
      · subst hco
        have hcc : (c :: E).count c = E.count c + 1 := List.count_cons_self c E
        have hpos : 1 ≤ n := by omega
        obtain ⟨m, rfl⟩ : ∃ m, n = m + 1 := ⟨n - 1, by omega⟩
        have hvd : visit_decref st c = setSt st c (.refs m) := by
          simp only [visit_decref, h]
        rw [List.foldl_cons, hvd, ih (setSt st c (.refs m)) c m (setSt_same st c _) (by omega)]
        congr 1
        rw [hcc]
        omega
      · have hoc : o ≠ c := fun he => hco he.symm
        have hcc : (c :: E).count o = E.count o := List.count_cons_of_ne hoc E
        have hvd : visit_decref st c o = st o := visit_decref_ne st c o hoc
        rw [List.foldl_cons, ih (visit_decref st c) o n (by rw [hvd]; exact h) (by omega)]
        congr 1
        rw [hcc]

theorem decref_fold_stuck : ∀ (E : List Nat) (st : Nat → St) (o : Nat),
    (∀ n, st o ≠ .refs n) → (E.foldl visit_decref st) o = st o := by
  intro E
  induction E with
  | nil => intro st o _; rfl
  | cons c E ih =>
      intro st o h
      rw [List.foldl_cons]
      by_cases hco : c = o
      · subst hco
        have hvd : visit_decref st c = st := by
          simp only [visit_decref]
          split
          · next n heq => exact absurd heq (h (n + 1))
          · rfl
        rw [hvd]
        exact ih st c h
      · have hvd : visit_decref st c o = st o := visit_decref_ne st c o (fun he => hco he.symm)
        rw [ih (visit_decref st c) o (by intro n; rw [hvd]; exact h n), hvd]

theorem subtract_refs_flat (H : Heap) : ∀ (Y : List Nat) (st : Nat → St),
    subtract_refs H Y st = (Y.flatMap H.children).foldl visit_decref st := by
  intro Y
  induction Y with
  | nil => intro st; rfl
  | cons y Y ih =>
      intro st
      show subtract_refs H Y ((H.children y).foldl visit_decref st) = _
      rw [ih, List.flatMap_cons, List.foldl_append]

/-- After `update_refs` and `subtract_refs`, every young object's `gc_refs`
is exactly its number of references from outside the young list, and no
object outside the young list is touched. -/
theorem subtract_update_refs (H : Heap) (Y : List Nat) (st : Nat → St)
    (hcnt : ∀ o ∈ Y, intRefs H Y o ≤ H.refcnt o)
    (hout : ∀ o, o ∉ Y → ∀ n, st o ≠ .refs n) :
    (∀ o ∈ Y, subtract_refs H Y (update_refs H Y st) o = .refs (extRefs H Y o)) ∧
    (∀ o, o ∉ Y → subtract_refs H Y (update_refs H Y st) o = st o) := by
  constructor
  · intro o ho
    rw [subtract_refs_flat,
      decref_fold_refs _ _ _ (H.refcnt o) (update_refs_mem H Y st o ho) (hcnt o ho)]
    rfl
  · intro o ho
    rw [subtract_refs_flat,
      decref_fold_stuck _ _ _ (by intro n; rw [update_refs_not_mem H Y st o ho]; exact hout o ho n)]
    exact update_refs_not_mem H Y st o ho

theorem muWeight_pos (v : St) : 1 ≤ muWeight v := by
  cases v with
  | untracked => decide
  | reachable => decide
  | tentUnreachable => decide
  | refs n =>
      cases n with
      | zero => decide
      | succ m => exact le_refl 1

theorem muWeight_le_two (v : St) : muWeight v ≤ 2 := by
  cases v with
  | untracked => decide
  | reachable => decide
  | tentUnreachable => decide
  | refs n =>
      cases n with
      | zero => decide
      | succ m => exact Nat.le_succ 1

theorem mucore_mem_Y {H : Heap} {Y : List Nat} {st : Nat → St} {s : MUState}
    (hc : MUCore H Y st s) (o : Nat)
    (h : o ∈ s.scanned ∨ o ∈ s.pending ∨ o ∈ s.unreachable) : o ∈ Y := by
  have hce := hc.count_eq o
  refine (count_pos_iff_mem o Y).mp ?_
  rcases h with h | h | h
  · have := (count_pos_iff_mem o s.scanned).mpr h
    omega
  · have := (count_pos_iff_mem o s.pending).mpr h
    omega
  · have := (count_pos_iff_mem o s.unreachable).mpr h
    omega

theorem mucore_locate {H : Heap} {Y : List Nat} {st : Nat → St} {s : MUState}
    (hc : MUCore H Y st s) {o : Nat} (ho : o ∈ Y) :
    o ∈ s.scanned ∨ o ∈ s.pending ∨ o ∈ s.unreachable := by
  by_cases h1 : o ∈ s.scanned
  · exact .inl h1
  by_cases h2 : o ∈ s.pending
  · exact .inr (.inl h2)
  by_cases h3 : o ∈ s.unreachable
  · exact .inr (.inr h3)
  exfalso
  have hce := hc.count_eq o
  have hy := (count_pos_iff_mem o Y).mpr ho
  have e1 := List.count_eq_zero.mpr h1
  have e2 := List.count_eq_zero.mpr h2
  have e3 := List.count_eq_zero.mpr h3
  omega

theorem vr_step (H : Heap) (Y : List Nat) (st : Nat → St)
    (hnd : Y.Nodup)
    (hout : ∀ o, o ∉ Y → st o = .reachable ∨ st o = .untracked)
    (u : MUState) (c : Nat)
    (hc : MUCore H Y st u)
    (hcR : c ∈ Y → ReachableOut H Y c) :
    MUCore H Y st (visit_reachable u c) ∧
    (∀ x, MUSafe u x → MUSafe (visit_reachable u c) x) ∧
    (c ∈ Y → MUSafe (visit_reachable u c) c) ∧
    (visit_reachable u c).scanned = u.scanned ∧
    muW (visit_reachable u c) ≤ muW u := by
  cases hsc : u.st c with
  | untracked =>
      have hv : visit_reachable u c = u := by simp only [visit_reachable, hsc]
      rw [hv]
      refine ⟨hc, fun x h => h, ?_, rfl, le_refl _⟩
      intro hcy
      exfalso
      rcases mucore_locate hc hcy with h | h | h
      · have := hc.scanned_st c h
        rw [hsc] at this
        exact St.noConfusion this
      · obtain ⟨n, hn⟩ := hc.pending_st c h
        rw [hsc] at hn
        exact St.noConfusion hn
      · have := hc.unreach_st c h
        rw [hsc] at this
        exact St.noConfusion this
  | reachable =>
      have hv : visit_reachable u c = u := by simp only [visit_reachable, hsc]
      rw [hv]
      refine ⟨hc, fun x h => h, ?_, rfl, le_refl _⟩
      intro hcy
      rcases mucore_locate hc hcy with h | h | h
      · exact .inl h
      · obtain ⟨n, hn⟩ := hc.pending_st c h
        rw [hsc] at hn
        exact absurd hn (fun hh => St.noConfusion hh)
      · have := hc.unreach_st c h
        rw [hsc] at this
        exact absurd this (fun hh => St.noConfusion hh)
  | refs n =>
    cases n with
    | succ m =>
        have hv : visit_reachable u c = u := by simp only [visit_reachable, hsc]
        rw [hv]
        refine ⟨hc, fun x h => h, ?_, rfl, le_refl _⟩
        intro hcy
        rcases mucore_locate hc hcy with h | h | h
        · exact .inl h
        · exact .inr ⟨h, m, hsc⟩
        · have := hc.unreach_st c h
          rw [hsc] at this
          exact absurd this (fun hh => St.noConfusion hh)
    | zero =>
        have hv : visit_reachable u c = { u with st := setSt u.st c (.refs 1) } := by
          simp only [visit_reachable, hsc]
        have hcy : c ∈ Y := by
          by_contra hcy
          have ho := hc.outside c hcy
          rcases hout c hcy with h | h <;> rw [hsc, h] at ho <;> exact St.noConfusion ho
        have hcs : c ∉ u.scanned := by
          intro h
          have := hc.scanned_st c h
          rw [hsc] at this
          exact St.noConfusion this
        have hcu : c ∉ u.unreachable := by
          intro h
          have := hc.unreach_st c h
          rw [hsc] at this
          exact St.noConfusion this
        have hcp : c ∈ u.pending := by
          rcases mucore_locate hc hcy with h | h | h
          · exact absurd h hcs
          · exact h
          · exact absurd h hcu
        rw [hv]
        refine ⟨⟨?_, ?_, ?_, ?_, ?_, ?_, ?_, ?_⟩, ?_, ?_, rfl, ?_⟩
        · exact hc.count_eq
        · intro o ho
          have hoc : o ≠ c := fun he => hcs (he ▸ ho)
          try dsimp only
          rw [setSt_other _ _ hoc]
          exact hc.scanned_st o ho
        · exact hc.scanned_reach
        · intro o ho
          by_cases hoc : o = c
          · subst hoc
            exact ⟨1, setSt_same _ _ _⟩
          · obtain ⟨k, hk⟩ := hc.pending_st o ho
            exact ⟨k, by (try dsimp only); rw [setSt_other _ _ hoc]; exact hk⟩
        · intro o ho k hk
          by_cases hoc : o = c
          · subst hoc
            try dsimp only at hk
            rw [setSt_same] at hk
            injection hk with h1
            right
            exact ⟨by omega, hcR hcy⟩
          · try dsimp only at hk
            rw [setSt_other _ _ hoc] at hk
            exact hc.pending_refs o ho k hk
        · intro o ho
          have hoc : o ≠ c := fun he => hcu (he ▸ ho)
          try dsimp only
          rw [setSt_other _ _ hoc]
          exact hc.unreach_st o ho
        · exact hc.unreach_ext
        · intro o ho
          have hoc : o ≠ c := fun he => ho (he ▸ hcy)
          try dsimp only
          rw [setSt_other _ _ hoc]
          exact hc.outside o ho
        · intro x hx
          rcases hx with hxs | ⟨hxp, k, hxr⟩
          · exact .inl hxs
          · have hxc : x ≠ c := by
              intro he
              rw [he, hsc] at hxr
              injection hxr with h1
              omega
            exact .inr ⟨hxp, k, by (try dsimp only); rw [setSt_other _ _ hxc]; exact hxr⟩
        · intro _
          exact .inr ⟨hcp, 0, setSt_same _ _ _⟩
        · show (u.pending.map (fun o => muWeight (setSt u.st c (.refs 1) o))).sum +
              u.unreachable.length ≤
            (u.pending.map (fun o => muWeight (u.st o))).sum + u.unreachable.length
          refine Nat.add_le_add_right ?_ _
          refine map_sum_le_map_sum _ _ _ ?_
          intro a ha
          by_cases hac : a = c
          · subst hac
            rw [setSt_same, hsc]
            decide
          · rw [setSt_other _ _ hac]
  | tentUnreachable =>
      have hv : visit_reachable u c =
          { u with
            unreachable := u.unreachable.erase c
            pending := u.pending ++ [c]
            st := setSt u.st c (.refs 1) } := by
        simp only [visit_reachable, hsc]
      have hcy : c ∈ Y := by
        by_contra hcy
        have ho := hc.outside c hcy
        rcases hout c hcy with h | h <;> rw [hsc, h] at ho <;> exact St.noConfusion ho
      have hcs : c ∉ u.scanned := by
        intro h
        have := hc.scanned_st c h
        rw [hsc] at this
        exact St.noConfusion this
      have hcp : c ∉ u.pending := by
        intro h
        obtain ⟨n, hn⟩ := hc.pending_st c h
        rw [hsc] at hn
        exact St.noConfusion hn
      have hcu : c ∈ u.unreachable := by
        rcases mucore_locate hc hcy with h | h | h
        · exact absurd h hcs
        · exact absurd h hcp
        · exact h
      have hcc1 : u.unreachable.count c = 1 := by
        have h3 := hc.count_eq c
        have h4 := List.nodup_iff_count_le_one.mp hnd c
        have h5 := (count_pos_iff_mem c _).mpr hcu
        omega
      have hcne : c ∉ u.unreachable.erase c := by
        intro h
        have h1 := (count_pos_iff_mem c _).mpr h
        rw [List.count_erase_self] at h1
        omega
      rw [hv]
      refine ⟨⟨?_, ?_, ?_, ?_, ?_, ?_, ?_, ?_⟩, ?_, ?_, rfl, ?_⟩
      · intro x
        try dsimp only
        have h3 := hc.count_eq x
        rw [List.count_append]
        by_cases hxc : x = c
        · subst hxc
          rw [List.count_erase_self]
          have h1 : List.count x [x] = 1 := by simp
          have h5 := (count_pos_iff_mem x _).mpr hcu
          omega
        · rw [List.count_erase_of_ne hxc u.unreachable]
          have h1 : List.count x [c] = 0 := List.count_eq_zero.mpr (by simp [hxc])
          omega
      · intro o ho
        have hoc : o ≠ c := fun he => hcs (he ▸ ho)
        try dsimp only
        rw [setSt_other _ _ hoc]
        exact hc.scanned_st o ho
      · exact hc.scanned_reach
      · intro o ho
        rcases List.mem_append.mp ho with hop | hoc1
        · have hoc : o ≠ c := fun he => hcp (he ▸ hop)
          obtain ⟨k, hk⟩ := hc.pending_st o hop
          exact ⟨k, by (try dsimp only); rw [setSt_other _ _ hoc]; exact hk⟩
        · have hoe : o = c := by simpa using hoc1
          subst hoe
          exact ⟨1, setSt_same _ _ _⟩
      · intro o ho k hk
        rcases List.mem_append.mp ho with hop | hoc1
        · have hoc : o ≠ c := fun he => hcp (he ▸ hop)
          try dsimp only at hk
          rw [setSt_other _ _ hoc] at hk
          exact hc.pending_refs o hop k hk
        · have hoe : o = c := by simpa using hoc1
          subst hoe
          try dsimp only at hk
          rw [setSt_same] at hk
          injection hk with h1
          right
          exact ⟨by omega, hcR hcy⟩
      · intro o ho
        have hoc : o ≠ c := fun he => hcne (he ▸ ho)
        try dsimp only
        rw [setSt_other _ _ hoc]
        exact hc.unreach_st o (List.mem_of_mem_erase ho)
      · intro o ho
        exact hc.unreach_ext o (List.mem_of_mem_erase ho)
      · intro o ho
        have hoc : o ≠ c := fun he => ho (he ▸ hcy)
        try dsimp only
        rw [setSt_other _ _ hoc]
        exact hc.outside o ho
      · intro x hx
        rcases hx with hxs | ⟨hxp, k, hxr⟩
        · exact .inl hxs
        · have hxc : x ≠ c := fun he => hcp (he ▸ hxp)
          exact .inr ⟨List.mem_append_left _ hxp, k, by (try dsimp only); rw [setSt_other _ _ hxc]; exact hxr⟩
      · intro _
        exact .inr ⟨List.mem_append.mpr (.inr (by simp)), 0, setSt_same _ _ _⟩
      · show ((u.pending ++ [c]).map (fun o => muWeight (setSt u.st c (.refs 1) o))).sum +
            (u.unreachable.erase c).length ≤
          (u.pending.map (fun o => muWeight (u.st o))).sum + u.unreachable.length
        rw [List.map_append, List.sum_append]
        have h1 : u.pending.map (fun o => muWeight (setSt u.st c (.refs 1) o)) =
            u.pending.map (fun o => muWeight (u.st o)) := by
          refine map_congr_mem _ _ _ ?_
          intro a ha
          have hac : a ≠ c := fun he => hcp (he ▸ ha)
          try dsimp only
          rw [setSt_other _ _ hac]
        have h2 : (([c].map (fun o => muWeight (setSt u.st c (.refs 1) o)))).sum = 1 := by
          rw [List.map_cons, List.map_nil, List.sum_cons, List.sum_nil, setSt_same]
          decide
        have h3 : (u.unreachable.erase c).length = u.unreachable.length - 1 :=
          List.length_erase_of_mem hcu
        have h4 : 0 < u.unreachable.length := List.length_pos_of_mem hcu
        rw [h1, h2, h3]
        omega

theorem vr_fold (H : Heap) (Y : List Nat) (st : Nat → St)
    (hnd : Y.Nodup)
    (hout : ∀ o, o ∉ Y → st o = .reachable ∨ st o = .untracked) :
    ∀ (cs : List Nat) (u : MUState), MUCore H Y st u →
    (∀ c ∈ cs, c ∈ Y → ReachableOut H Y c) →
    MUCore H Y st (cs.foldl visit_reachable u) ∧
    (∀ x, MUSafe u x → MUSafe (cs.foldl visit_reachable u) x) ∧
    (∀ c ∈ cs, c ∈ Y → MUSafe (cs.foldl visit_reachable u) c) ∧
    (cs.foldl visit_reachable u).scanned = u.scanned ∧
    muW (cs.foldl visit_reachable u) ≤ muW u := by
  intro cs
  induction cs with
  | nil =>
      intro u hc _
      exact ⟨hc, fun x h => h, fun x hx => absurd hx (List.not_mem_nil x), rfl, le_refl _⟩
  | cons d cs ih =>
      intro u hc hR
      rw [List.foldl_cons]
      obtain ⟨hc1, hmono1, hsafe1, hscan1, hW1⟩ :=
        vr_step H Y st hnd hout u d hc (hR d (List.mem_cons_self d cs))
      obtain ⟨hc2, hmono2, hsafe2, hscan2, hW2⟩ :=
        ih (visit_reachable u d) hc1 (fun x hx hy => hR x (List.mem_cons_of_mem d hx) hy)
      refine ⟨hc2, fun x hx => hmono2 x (hmono1 x hx), ?_, hscan2.trans hscan1, hW2.trans hW1⟩
      intro x hx hy
      rcases List.mem_cons.mp hx with he | hm
      · subst he
        exact hmono2 x (hsafe1 hy)
      · exact hsafe2 x hm hy

theorem mu_step_spec (H : Heap) (Y : List Nat) (st : Nat → St)
    (hnd : Y.Nodup)
    (hout : ∀ o, o ∉ Y → st o = .reachable ∨ st o = .untracked)
    (s : MUState) (hc : MUCore H Y st s) (hok : MUChildOK H Y s) :
    MUCore H Y st (mu_step H s) ∧ MUChildOK H Y (mu_step H s) ∧
    (s.pending ≠ [] → muW (mu_step H s) + 1 ≤ muW s) := by
  cases hp : s.pending with
  | nil =>
      have hv : mu_step H s = s := by simp only [mu_step, hp]
      rw [hv]
      exact ⟨hc, hok, fun h => absurd rfl h⟩
  | cons o rest =>
      have hop : o ∈ s.pending := by rw [hp]; exact List.mem_cons_self o rest
      obtain ⟨n, hn⟩ := hc.pending_st o hop
      have hoY : o ∈ Y := mucore_mem_Y hc o (.inr (.inl hop))
      have hcount := hc.count_eq o
      have hnd1 := List.nodup_iff_count_le_one.mp hnd o
      have hpc1 : 0 < s.pending.count o := (count_pos_iff_mem o s.pending).mpr hop
      have hos : o ∉ s.scanned := by
        intro h
        have := (count_pos_iff_mem o s.scanned).mpr h
        omega
      have hou : o ∉ s.unreachable := by
        intro h
        have := (count_pos_iff_mem o s.unreachable).mpr h
        omega
      have hpcc : s.pending.count o = rest.count o + 1 := by
        rw [hp]; exact List.count_cons_self o rest
      have hor : o ∉ rest := by
        intro h
        have h1 := (count_pos_iff_mem o rest).mpr h
        omega
      cases n with
      | zero =>
          have hv : mu_step H s =
              { s with
                pending := rest
                unreachable := s.unreachable ++ [o]
                st := setSt s.st o .tentUnreachable } := by
            simp only [mu_step, hp, hn]
          have hext : extRefs H Y o = 0 := by
            rcases hc.pending_refs o hop 0 hn with h | h
            · exact h.symm
            · exact absurd h.1 (by omega)
          rw [hv]
          refine ⟨⟨?_, ?_, ?_, ?_, ?_, ?_, ?_, ?_⟩, ?_, ?_⟩
          · intro x
            try dsimp only
            have h3 := hc.count_eq x
            rw [List.count_append]
            by_cases hxo : x = o
            · subst hxo
              have h4 : s.pending.count x = rest.count x + 1 := by
                rw [hp]; exact List.count_cons_self x rest
              have h5 : List.count x [x] = 1 := by simp
              omega
            · have h4 : s.pending.count x = rest.count x := by
                rw [hp]; exact List.count_cons_of_ne hxo rest
              have h5 : List.count x [o] = 0 := List.count_eq_zero.mpr (by simp [hxo])
              omega
          · intro x hx
            have hxo : x ≠ o := fun he => hos (he ▸ hx)
            try dsimp only
            rw [setSt_other _ _ hxo]
            exact hc.scanned_st x hx
          · exact hc.scanned_reach
          · intro x hx
            have hxo : x ≠ o := fun he => hor (he ▸ hx)
            have hxp : x ∈ s.pending := by rw [hp]; exact List.mem_cons_of_mem o hx
            obtain ⟨k, hk⟩ := hc.pending_st x hxp
            exact ⟨k, by (try dsimp only); rw [setSt_other _ _ hxo]; exact hk⟩
          · intro x hx k hk
            have hxo : x ≠ o := fun he => hor (he ▸ hx)
            have hxp : x ∈ s.pending := by rw [hp]; exact List.mem_cons_of_mem o hx
            try dsimp only at hk
            rw [setSt_other _ _ hxo] at hk
            exact hc.pending_refs x hxp k hk
          · intro x hx
            rcases List.mem_append.mp hx with hxu | hxo1
            · have hxo : x ≠ o := fun he => hou (he ▸ hxu)
              try dsimp only
              rw [setSt_other _ _ hxo]
              exact hc.unreach_st x hxu
            · have hxe : x = o := by simpa using hxo1
              subst hxe
              exact setSt_same _ _ _
          · intro x hx
            rcases List.mem_append.mp hx with hxu | hxo1
            · exact hc.unreach_ext x hxu
            · have hxe : x = o := by simpa using hxo1
              subst hxe
              exact hext
          · intro x hx
            have hxo : x ≠ o := fun he => hx (he ▸ hoY)
            try dsimp only
            rw [setSt_other _ _ hxo]
            exact hc.outside x hx
          · intro p hps d hd hdY
            have hsafe := hok p hps d hd hdY
            rcases hsafe with h | ⟨h, k, hk⟩
            · exact .inl h
            · by_cases hdo : d = o
              · subst hdo
                rw [hn] at hk
                injection hk with h1
                exact absurd h1 (by omega)
              · refine .inr ⟨?_, k, ?_⟩
                · rw [hp] at h
                  rcases List.mem_cons.mp h with he | hm
                  · exact absurd he hdo
                  · exact hm
                · try dsimp only
                  rw [setSt_other _ _ hdo]
                  exact hk
          · intro _
            show (rest.map (fun x => muWeight (setSt s.st o .tentUnreachable x))).sum +
                (s.unreachable ++ [o]).length + 1 ≤
              (s.pending.map (fun x => muWeight (s.st x))).sum + s.unreachable.length
            have h1 : rest.map (fun x => muWeight (setSt s.st o .tentUnreachable x)) =
                rest.map (fun x => muWeight (s.st x)) := by
              refine map_congr_mem _ _ _ ?_
              intro a ha
              have hao : a ≠ o := fun he => hor (he ▸ ha)
              try dsimp only
              rw [setSt_other _ _ hao]
            have h2 : s.pending.map (fun x => muWeight (s.st x)) =
                muWeight (s.st o) :: rest.map (fun x => muWeight (s.st x)) := by
              rw [hp, List.map_cons]
            have h3 : muWeight (s.st o) = 2 := by rw [hn]; rfl
            have h4 : ([o] : List Nat).length = 1 := rfl
            rw [h1, h2, List.sum_cons, h3, List.length_append, h4]
            omega
      | succ m =>
          have hv : mu_step H s = (H.children o).foldl visit_reachable
              { s with
                pending := rest
                scanned := s.scanned ++ [o]
                st := setSt s.st o .reachable } := by
            simp only [mu_step, hp, hn]
          have hRo : ReachableOut H Y o := by
            rcases hc.pending_refs o hop (m + 1) hn with h | h
            · exact ReachableOut.base hoY (by rw [← h]; omega)
            · exact h.2
          have hct : MUCore H Y st
              { s with
                pending := rest
                scanned := s.scanned ++ [o]
                st := setSt s.st o .reachable } := by
            refine ⟨?_, ?_, ?_, ?_, ?_, ?_, ?_, ?_⟩
            · intro x
              try dsimp only
              have h3 := hc.count_eq x
              rw [List.count_append]
              by_cases hxo : x = o
              · subst hxo
                have h4 : s.pending.count x = rest.count x + 1 := by
                  rw [hp]; exact List.count_cons_self x rest
                have h5 : List.count x [x] = 1 := by simp
                omega
              · have h4 : s.pending.count x = rest.count x := by
                  rw [hp]; exact List.count_cons_of_ne hxo rest
                have h5 : List.count x [o] = 0 := List.count_eq_zero.mpr (by simp [hxo])
                omega
            · intro x hx
              rcases List.mem_append.mp hx with hxs | hxo1
              · have hxo : x ≠ o := fun he => hos (he ▸ hxs)
                try dsimp only
                rw [setSt_other _ _ hxo]
                exact hc.scanned_st x hxs
              · have hxe : x = o := by simpa using hxo1
                subst hxe
                exact setSt_same _ _ _
            · intro x hx
              rcases List.mem_append.mp hx with hxs | hxo1
              · exact hc.scanned_reach x hxs
              · have hxe : x = o := by simpa using hxo1
                subst hxe
                exact hRo
            · intro x hx
              have hxo : x ≠ o := fun he => hor (he ▸ hx)
              have hxp : x ∈ s.pending := by rw [hp]; exact List.mem_cons_of_mem o hx
              obtain ⟨k, hk⟩ := hc.pending_st x hxp
              exact ⟨k, by (try dsimp only); rw [setSt_other _ _ hxo]; exact hk⟩
            · intro x hx k hk
              have hxo : x ≠ o := fun he => hor (he ▸ hx)
              have hxp : x ∈ s.pending := by rw [hp]; exact List.mem_cons_of_mem o hx
              try dsimp only at hk
              rw [setSt_other _ _ hxo] at hk
              exact hc.pending_refs x hxp k hk
            · intro x hx
              have hxo : x ≠ o := fun he => hou (he ▸ hx)
              try dsimp only
              rw [setSt_other _ _ hxo]
              exact hc.unreach_st x hx
            · exact hc.unreach_ext
            · intro x hx
              have hxo : x ≠ o := fun he => hx (he ▸ hoY)
              try dsimp only
              rw [setSt_other _ _ hxo]
              exact hc.outside x hx
          have hsafe_t : ∀ x, MUSafe s x → MUSafe
              { s with
                pending := rest
                scanned := s.scanned ++ [o]
                st := setSt s.st o .reachable } x := by
            intro x hx
            rcases hx with hxs | ⟨hxp, k, hxr⟩
            · exact .inl (List.mem_append_left _ hxs)
            · by_cases hxo : x = o
              · subst hxo
                exact .inl (List.mem_append.mpr (.inr (by simp)))
              · refine .inr ⟨?_, k, ?_⟩
                · rw [hp] at hxp
                  rcases List.mem_cons.mp hxp with he | hm
                  · exact absurd he hxo
                  · exact hm
                · show setSt s.st o .reachable x = St.refs (k + 1)
                  try dsimp only
                  rw [setSt_other _ _ hxo]
                  exact hxr
          obtain ⟨hcf, hmono, hsafec, hscan, hWf⟩ :=
            vr_fold H Y st hnd hout (H.children o)
              { s with
                pending := rest
                scanned := s.scanned ++ [o]
                st := setSt s.st o .reachable }
              hct (fun x hxc hxy => ReachableOut.step hRo hxc hxy)
          rw [hv]
          refine ⟨hcf, ?_, ?_⟩
          · intro p hps d hd hdY
            rw [hscan] at hps
            rcases List.mem_append.mp hps with hpo | hpo
            · exact hmono d (hsafe_t d (hok p hpo d hd hdY))
            · have hpe : p = o := by simpa using hpo
              subst hpe
              exact hsafec d hd hdY
          · intro _
            have hWt : muW
                { s with
                  pending := rest
                  scanned := s.scanned ++ [o]
                  st := setSt s.st o .reachable } + 1 = muW s := by
              show (rest.map (fun x => muWeight (setSt s.st o .reachable x))).sum +
                  s.unreachable.length + 1 =
                (s.pending.map (fun x => muWeight (s.st x))).sum + s.unreachable.length
              have h1 : rest.map (fun x => muWeight (setSt s.st o .reachable x)) =
                  rest.map (fun x => muWeight (s.st x)) := by
                refine map_congr_mem _ _ _ ?_
                intro a ha
                have hao : a ≠ o := fun he => hor (he ▸ ha)
                try dsimp only
                rw [setSt_other _ _ hao]
              have h2 : s.pending.map (fun x => muWeight (s.st x)) =
                  muWeight (s.st o) :: rest.map (fun x => muWeight (s.st x)) := by
                rw [hp, List.map_cons]
              have h3 : muWeight (s.st o) = 1 := by rw [hn]; rfl
              rw [h1, h2, List.sum_cons, h3]
              omega
            omega

theorem mu_run_spec (H : Heap) (Y : List Nat) (st : Nat → St)
    (hnd : Y.Nodup)
    (hout : ∀ o, o ∉ Y → st o = .reachable ∨ st o = .untracked) :
    ∀ (fuel : Nat) (s : MUState), MUCore H Y st s → MUChildOK H Y s → muW s ≤ fuel →
    (mu_run H fuel s).pending = [] ∧ MUCore H Y st (mu_run H fuel s) ∧
    MUChildOK H Y (mu_run H fuel s) := by
  intro fuel
  induction fuel with
  | zero =>
      intro s hc hok hW
      cases hp : s.pending with
      | nil => exact ⟨hp, hc, hok⟩
      | cons o rest =>
          exfalso
          have h1 : 1 ≤ muWeight (s.st o) := muWeight_pos _
          have h2 : muW s = (s.pending.map (fun x => muWeight (s.st x))).sum +
              s.unreachable.length := rfl
          rw [hp, List.map_cons, List.sum_cons] at h2
          omega
  | succ fuel ih =>
      intro s hc hok hW
      cases hp : s.pending with
      | nil =>
          have hv : mu_run H (fuel + 1) s = s := by simp only [mu_run, hp]
          rw [hv]
          exact ⟨hp, hc, hok⟩
      | cons o rest =>
          have hv : mu_run H (fuel + 1) s = mu_run H fuel (mu_step H s) := by
            simp only [mu_run, hp]
          obtain ⟨hc2, hok2, hdec⟩ := mu_step_spec H Y st hnd hout s hc hok
          have hne : s.pending ≠ [] := by rw [hp]; exact List.cons_ne_nil o rest
          have hW2 : muW (mu_step H s) ≤ fuel := by
            have := hdec hne
            omega
          rw [hv]
          exact ih (mu_step H s) hc2 hok2 hW2

theorem mu_final_char (H : Heap) (Y : List Nat) (st : Nat → St)
    (hnd : Y.Nodup) (m : MUState)
    (hc : MUCore H Y st m) (hok : MUChildOK H Y m) (hpend : m.pending = []) :
    (∀ o, o ∈ m.scanned ↔ o ∈ Y ∧ ReachableOut H Y o) ∧
    (∀ o, o ∈ m.unreachable ↔ o ∈ Y ∧ ¬ReachableOut H Y o) := by
  have hsc : ∀ o, ReachableOut H Y o → o ∈ m.scanned := by
    intro o hR
    induction hR with
    | @base x hoY hext =>
        rcases mucore_locate hc hoY with h | h | h
        · exact h
        · rw [hpend] at h
          cases h
        · have := hc.unreach_ext x h
          omega
    | @step p x hp hcc hcY ih =>
        have hsafe := hok p ih x hcc hcY
        rcases hsafe with h | ⟨h, _⟩
        · exact h
        · rw [hpend] at h
          cases h
  constructor
  · intro o
    constructor
    · intro h
      exact ⟨mucore_mem_Y hc o (.inl h), hc.scanned_reach o h⟩
    · intro h
      exact hsc o h.2
  · intro o
    constructor
    · intro h
      refine ⟨mucore_mem_Y hc o (.inr (.inr h)), ?_⟩
      intro hR
      have hs := hsc o hR
      have h1 := (count_pos_iff_mem o m.scanned).mpr hs
      have h2 := (count_pos_iff_mem o m.unreachable).mpr h
      have h3 := hc.count_eq o
      have h4 := List.nodup_iff_count_le_one.mp hnd o
      omega
    · intro h
      rcases mucore_locate hc h.1 with hl | hl | hl
      · exact absurd (hc.scanned_reach o hl) h.2
      · rw [hpend] at hl
        cases hl
      · exact hl

/-- C1: after `update_refs` copies every young object's refcount into
`gc_refs` and `subtract_refs` runs every young object's traverse callback,
each young object's `gc_refs` is exactly its number of references from
outside the young list; `move_unreachable` then terminates with the cursor
back at the head and partitions the young list: exactly the objects reachable
from outside — directly (`gc_refs > 0`) or transitively through another
reachable object — are kept, marked `GC_REACHABLE`, and all the others end on
the `unreachable` list marked `GC_TENTATIVELY_UNREACHABLE`.  Hypotheses: the
merged young list has no duplicates, internal references are counted by the
true refcounts, and objects outside the collected generations are
`GC_REACHABLE` or untracked. -/
theorem move_unreachable_spec (H : Heap) (Y : List Nat) (st : Nat → St)
    (hnd : Y.Nodup)
    (hcnt : ∀ o ∈ Y, intRefs H Y o ≤ H.refcnt o)
    (hout : ∀ o, o ∉ Y → st o = .reachable ∨ st o = .untracked) :
    (∀ o ∈ Y, subtract_refs H Y (update_refs H Y st) o = .refs (extRefs H Y o)) ∧
    (move_unreachable H Y (subtract_refs H Y (update_refs H Y st))).pending = [] ∧
    (∀ o, o ∈ (move_unreachable H Y (subtract_refs H Y (update_refs H Y st))).scanned ↔
      o ∈ Y ∧ ReachableOut H Y o) ∧
    (∀ o ∈ (move_unreachable H Y (subtract_refs H Y (update_refs H Y st))).scanned,
      (move_unreachable H Y (subtract_refs H Y (update_refs H Y st))).st o = .reachable) ∧
    (∀ o, o ∈ (move_unreachable H Y (subtract_refs H Y (update_refs H Y st))).unreachable ↔
      o ∈ Y ∧ ¬ReachableOut H Y o) ∧
    (∀ o ∈ (move_unreachable H Y (subtract_refs H Y (update_refs H Y st))).unreachable,
      (move_unreachable H Y (subtract_refs H Y (update_refs H Y st))).st o =
        .tentUnreachable) := by
  have hout2 : ∀ o, o ∉ Y → ∀ n, st o ≠ .refs n := by
    intro o ho n
    rcases hout o ho with h | h <;> rw [h] <;> intro hh <;> exact St.noConfusion hh
  obtain ⟨hA, hA2⟩ := subtract_update_refs H Y st hcnt hout2
  have hc0 : MUCore H Y st
      { scanned := [], pending := Y, unreachable := [],
        st := subtract_refs H Y (update_refs H Y st) } := by
    refine ⟨?_, ?_, ?_, ?_, ?_, ?_, ?_, ?_⟩
    · intro o
      simp
    · intro o ho
      exact absurd ho (List.not_mem_nil o)
    · intro o ho
      exact absurd ho (List.not_mem_nil o)
    · intro o ho
      exact ⟨extRefs H Y o, hA o ho⟩
    · intro o ho n hn
      left
      have hn2 : subtract_refs H Y (update_refs H Y st) o = St.refs n := hn
      rw [hA o ho] at hn2
      injection hn2 with h2
      exact h2.symm
    · intro o ho
      exact absurd ho (List.not_mem_nil o)
    · intro o ho
      exact absurd ho (List.not_mem_nil o)
    · intro o ho
      exact hA2 o ho
  have hok0 : MUChildOK H Y
      { scanned := [], pending := Y, unreachable := [],
        st := subtract_refs H Y (update_refs H Y st) } := by
    intro p hp
    exact absurd hp (List.not_mem_nil p)
  have hWle : muW
      { scanned := [], pending := Y, unreachable := [],
        st := subtract_refs H Y (update_refs H Y st) } ≤ 3 * Y.length := by
    show (Y.map (fun o => muWeight (subtract_refs H Y (update_refs H Y st) o))).sum +
        ([] : List Nat).length ≤ 3 * Y.length
    have h1 := map_sum_le_const Y
      (fun o => muWeight (subtract_refs H Y (update_refs H Y st) o)) 2
      (fun a _ => muWeight_le_two _)
    simp only [List.length_nil]
    omega
  obtain ⟨hpend, hcf, hokf⟩ := mu_run_spec H Y st hnd hout (3 * Y.length) _ hc0 hok0 hWle
  obtain ⟨hiff1, hiff2⟩ := mu_final_char H Y st hnd _ hcf hokf hpend
  exact ⟨hA, hpend, hiff1, hcf.scanned_st, hiff2, hcf.unreach_st⟩

theorem move_unreachable_spec_w :
    ([0, 1, 2] : List Nat).Nodup ∧
    (∀ o ∈ ([0, 1, 2] : List Nat), intRefs triadHeap [0, 1, 2] o ≤ triadHeap.refcnt o) ∧
    ((∀ o ∈ ([0, 1, 2] : List Nat),
        subtract_refs triadHeap [0, 1, 2] (update_refs triadHeap [0, 1, 2] (fun _ => .reachable)) o =
          .refs (extRefs triadHeap [0, 1, 2] o)) ∧
      (move_unreachable triadHeap [0, 1, 2]
        (subtract_refs triadHeap [0, 1, 2]
          (update_refs triadHeap [0, 1, 2] (fun _ => .reachable)))).pending = [] ∧
      (∀ o, o ∈ (move_unreachable triadHeap [0, 1, 2]
          (subtract_refs triadHeap [0, 1, 2]
            (update_refs triadHeap [0, 1, 2] (fun _ => .reachable)))).scanned ↔
        o ∈ ([0, 1, 2] : List Nat) ∧ ReachableOut triadHeap [0, 1, 2] o) ∧
      (∀ o ∈ (move_unreachable triadHeap [0, 1, 2]
          (subtract_refs triadHeap [0, 1, 2]
            (update_refs triadHeap [0, 1, 2] (fun _ => .reachable)))).scanned,
        (move_unreachable triadHeap [0, 1, 2]
          (subtract_refs triadHeap [0, 1, 2]
            (update_refs triadHeap [0, 1, 2] (fun _ => .reachable)))).st o = .reachable) ∧
      (∀ o, o ∈ (move_unreachable triadHeap [0, 1, 2]
          (subtract_refs triadHeap [0, 1, 2]
            (update_refs triadHeap [0, 1, 2] (fun _ => .reachable)))).unreachable ↔
        o ∈ ([0, 1, 2] : List Nat) ∧ ¬ReachableOut triadHeap [0, 1, 2] o) ∧
      (∀ o ∈ (move_unreachable triadHeap [0, 1, 2]
          (subtract_refs triadHeap [0, 1, 2]
            (update_refs triadHeap [0, 1, 2] (fun _ => .reachable)))).unreachable,
        (move_unreachable triadHeap [0, 1, 2]
          (subtract_refs triadHeap [0, 1, 2]
            (update_refs triadHeap [0, 1, 2] (fun _ => .reachable)))).st o =
          .tentUnreachable)) :=
  ⟨by decide, by decide,
   move_unreachable_spec triadHeap [0, 1, 2] (fun _ => .reachable)
     (by decide) (by decide) (fun o _ => Or.inl rfl)⟩

/-! ## Claim C5: the root stack chunk is never freed -/

theorem savedTopsOK_mono (live live₂ : List FrameRef) :
    ∀ (cs : List StackChunk) (d : Nat), SavedTopsOK live cs d →
      (∀ f ∈ live₂, f ∈ live ∨ d < f.1) → SavedTopsOK live₂ cs d := by
  intro cs
  induction cs with
  | nil => intro d h _; exact h
  | cons c cs ih =>
      intro d h hsub
      obtain ⟨h1, h2, h3⟩ := h
      refine ⟨?_, h2, ih (d - 1) h3 ?_⟩
      · intro f hf hd
        rcases hsub f hf with hm | hgt
        · exact h1 f hm hd
        · omega
      · intro f hf
        rcases hsub f hf with hm | hgt
        · exact .inl hm
        · right; omega

theorem head_is_max (n : Nat) (g : FrameRef) (t : List FrameRef)
    (hpw : List.Pairwise FrameRel (g :: t)) (hmem : (n, 0) ∈ g :: t)
    (hle : g.1 ≤ n) : g.1 = n := by
  rcases List.mem_cons.mp hmem with he | ht
  · rw [← he]
  · have hr := (List.pairwise_cons.mp hpw).1 _ ht
    rcases hr with h1 | ⟨h1, _⟩ <;> simp at h1 <;> omega

theorem frameRel_head_all (h : FrameRef) (t : List FrameRef) (n b : Nat)
    (hpw : List.Pairwise FrameRel (h :: t)) (hh1 : h.1 = n) (hh2 : h.2 < b) :
    ∀ g ∈ h :: t, FrameRel (n, b) g := by
  intro g hg
  rcases List.mem_cons.mp hg with rfl | hgt
  · exact .inr ⟨hh1, hh2⟩
  · rcases (List.pairwise_cons.mp hpw).1 _ hgt with h1 | ⟨h1, h2⟩
    · left; omega
    · right; constructor <;> omega

theorem popFrame_cons (c : StackChunk) (cs : List StackChunk) (top limit : Nat)
    (f : FrameRef) :
    popFrame ⟨c :: cs, top, limit⟩ f =
      if f = ((c :: cs).length, 0) then
        match cs with
        | [] => none
        | prev :: rest' => some ⟨prev :: rest', prev.top, prev.cap⟩
      else some ⟨c :: cs, f.2, limit⟩ := rfl

theorem fsinv_pushFrame (s : FrameStack) (live : List FrameRef) (size : Nat)
    (hinv : FSInv s live) (hsz : size ≠ 0) :
    FSInv (pushFrame s size).1 ((pushFrame s size).2 :: live) := by
  obtain ⟨h1, h2, h3, h4, h5, h6⟩ := hinv
  by_cases hss : hasStackSpace s size = true
  · -- room in the current chunk: the frame starts at datastack_top
    have hne : s.chunks ≠ [] := by
      intro he
      rw [hasStackSpace, he] at hss
      simp at hss
    have hn1 : 1 ≤ s.chunks.length := List.length_pos.mpr hne
    have htop1 : s.chunks.length = 1 → 1 ≤ s.top := by
      intro hl
      match live, h5 with
      | [], ⟨_, hb⟩ => exact hb hl
      | f :: t, ⟨hfd, hfb⟩ =>
          have := h4 f (List.mem_cons_self f t) (by omega)
          omega
    have hpf : pushFrame s size =
        ({ s with top := s.top + size }, (s.chunks.length, s.top)) := by
      rw [pushFrame, if_pos hss]
    have hall : ∀ g ∈ live, FrameRel (s.chunks.length, s.top) g := by
      match live, h5 with
      | [], _ => intro g hg; cases hg
      | f :: t, ⟨hfd, hfb⟩ => exact frameRel_head_all f t _ _ h2 hfd hfb
    have hmain : FSInv { s with top := s.top + size }
        ((s.chunks.length, s.top) :: live) := by
      refine ⟨?_, List.Pairwise.cons hall h2, ?_, ?_,
        ⟨rfl, show s.top < s.top + size by omega⟩, ?_⟩
      · intro g hg
        rcases List.mem_cons.mp hg with rfl | hm
        · exact ⟨hn1, le_refl _⟩
        · exact h1 g hm
      · intro d hd2 hdn
        exact List.mem_cons_of_mem _ (h3 d hd2 hdn)
      · intro g hg hg1
        rcases List.mem_cons.mp hg with rfl | hm
        · exact htop1 hg1
        · exact h4 g hm hg1
      · refine savedTopsOK_mono _ _ _ _ h6 ?_
        intro f hf
        rcases List.mem_cons.mp hf with rfl | hm
        · right
          show s.chunks.length - 1 < s.chunks.length
          omega
        · exact .inl hm
    rw [hpf]
    exact hmain
  · -- no room: push_chunk allocates a new chunk
    have hpf : pushFrame s size = push_chunk s size := by
      rw [pushFrame, if_neg hss]
    rw [hpf]
    obtain ⟨chunks, top, limit⟩ := s
    cases chunks with
    | nil =>
        -- fresh thread state: the new chunk is the root; the frame skips slot 0
        have hlive : live = [] := by
          cases live with
          | nil => rfl
          | cons f t =>
              have hr : 1 ≤ f.1 ∧ f.1 ≤ 0 :=
                h1 f (List.mem_cons_self f t)
              omega
        subst hlive
        have hmain : FSInv
            { chunks := [⟨growSize DATA_STACK_CHUNK_SLOTS (size + MINIMUM_OVERHEAD), 0⟩]
              top := 1 + size
              limit := growSize DATA_STACK_CHUNK_SLOTS (size + MINIMUM_OVERHEAD) }
            [(1, 1)] := by
          refine ⟨?_, List.pairwise_singleton _ _, ?_, ?_,
            ⟨rfl, show 1 < 1 + size by omega⟩, rfl⟩
          · intro g hg
            rcases List.mem_cons.mp hg with rfl | hm
            · exact ⟨le_refl _, le_refl _⟩
            · cases hm
          · intro d hd2 hdn
            have hd1 : d ≤ 1 := hdn
            omega
          · intro g hg hg1
            rcases List.mem_cons.mp hg with rfl | hm
            · exact le_refl _
            · cases hm
        exact hmain
    | cons cur rest =>
        have hone : ∀ g ∈ live, 1 ≤ g.1 ∧ g.1 ≤ rest.length + 1 := h1
        have hthree : ∀ d, 2 ≤ d → d ≤ rest.length + 1 → (d, 0) ∈ live := h3
        have hsix : SavedTopsOK live rest (rest.length + 1 - 1) := h6
        have htop1 : rest.length + 1 = 1 → 1 ≤ top := by
          intro hl
          match live, h5 with
          | [], ⟨_, hb⟩ => exact hb hl
          | f :: t, ⟨hfd, hfb⟩ =>
              have hfd2 : f.1 = rest.length + 1 := hfd
              have hfb2 : f.2 < top := hfb
              have := h4 f (List.mem_cons_self f t) (by omega)
              omega
        have hdepth : ∀ g ∈ live, g.1 = rest.length + 1 → g.2 < top := by
          match live, h5 with
          | [], _ => intro g hg; cases hg
          | f :: t, ⟨hfd, hfb⟩ =>
              have hfd2 : f.1 = rest.length + 1 := hfd
              have hfb2 : f.2 < top := hfb
              intro g hg hg1
              rcases frameRel_head_all f t _ _ h2 hfd2 hfb2 g hg with hlt | ⟨_, hb⟩
              · omega
              · exact hb
        have hmain : FSInv
            { chunks := ⟨growSize DATA_STACK_CHUNK_SLOTS (size + MINIMUM_OVERHEAD), 0⟩ ::
                ⟨cur.cap, top⟩ :: rest
              top := 0 + size
              limit := growSize DATA_STACK_CHUNK_SLOTS (size + MINIMUM_OVERHEAD) }
            ((rest.length + 2, 0) :: live) := by
          refine ⟨?_, ?_, ?_, ?_,
        ⟨show rest.length + 2 = rest.length + 1 + 1 by omega,
         show 0 < 0 + size by omega⟩, ?_⟩
          · intro g hg
            rcases List.mem_cons.mp hg with rfl | hm
            · exact ⟨by omega, show rest.length + 2 ≤ rest.length + 1 + 1 by omega⟩
            · have hr := hone g hm
              exact ⟨hr.1, show g.1 ≤ rest.length + 1 + 1 by omega⟩
          · refine List.Pairwise.cons ?_ h2
            intro g hg
            left
            have hr := hone g hg
            show g.1 < rest.length + 2
            omega
          · intro d hd2 hdn
            have hdn2 : d ≤ rest.length + 1 + 1 := hdn
            rcases Nat.lt_or_ge d (rest.length + 2) with hlt | hge
            · exact List.mem_cons_of_mem _ (hthree d hd2 (by omega))
            · have hd : d = rest.length + 2 := by omega
              subst hd
              exact List.mem_cons_self _ _
          · intro g hg hg1
            rcases List.mem_cons.mp hg with rfl | hm
            · exact absurd hg1 (by
                show ¬(rest.length + 2 = 1)
                omega)
            · exact h4 g hm hg1
          · show SavedTopsOK ((rest.length + 2, 0) :: live)
              (⟨cur.cap, top⟩ :: rest) (rest.length + 1 + 1 - 1)
            refine ⟨?_, ?_, ?_⟩
            · intro g hg hgd
              rcases List.mem_cons.mp hg with rfl | hm
              · exact absurd hgd (by
                  show ¬(rest.length + 2 = rest.length + 1 + 1 - 1)
                  omega)
              · exact hdepth g hm (by omega)
            · intro hl
              exact htop1 (by omega)
            · refine savedTopsOK_mono _ _ _ _ hsix ?_
              intro g hg
              rcases List.mem_cons.mp hg with rfl | hm
              · right
                show rest.length + 1 + 1 - 1 - 1 < rest.length + 2
                omega
              · exact .inl hm
        exact hmain

theorem fsinv_popFrame (s : FrameStack) (f : FrameRef) (live : List FrameRef)
    (hinv : FSInv s (f :: live)) :
    ∃ s', popFrame s f = some s' ∧ FSInv s' live := by
  obtain ⟨h1, h2, h3, h4, h5, h6⟩ := hinv
  have hpw := (List.pairwise_cons.mp h2).1
  have hpwt := (List.pairwise_cons.mp h2).2
  obtain ⟨chunks, top, limit⟩ := s
  cases chunks with
  | nil =>
      have hr : 1 ≤ f.1 ∧ f.1 ≤ 0 := h1 f (List.mem_cons_self f live)
      omega
  | cons c rest =>
  obtain ⟨hfd, hfb⟩ := h5
  have hfd2 : f.1 = rest.length + 1 := hfd
  have hfb2 : f.2 < top := hfb
  have hone : ∀ g ∈ f :: live, 1 ≤ g.1 ∧ g.1 ≤ rest.length + 1 := h1
  have hthree : ∀ d, 2 ≤ d → d ≤ rest.length + 1 → (d, 0) ∈ f :: live := h3
  have hsix : SavedTopsOK (f :: live) rest (rest.length + 1 - 1) := h6
  by_cases hf2 : f.2 = 0
  · -- the frame sits at data[0] of the current chunk: free the chunk.
    -- The current chunk cannot be the root: a root frame never sits at
    -- slot 0, so the assert on the previous chunk cannot fire.
    have hn2 : 2 ≤ rest.length + 1 := by
      rcases Nat.lt_or_ge (rest.length + 1) 2 with hlt | hge
      · have h41 := h4 f (List.mem_cons_self f live) (by omega)
        omega
      · exact hge
    have hnof : ∀ g ∈ live, g.1 < rest.length + 1 := by
      intro g hg
      rcases hpw g hg with hl | ⟨_, hb⟩
      · omega
      · omega
    cases rest with
    | nil => exact absurd hn2 (by decide)
    | cons prev rest' =>
    have hfeq : f = ((c :: prev :: rest').length, 0) := by
      have hfst : f.1 = ((c :: prev :: rest').length, (0 : Nat)).1 := hfd2
      have hsnd : f.2 = ((c :: prev :: rest').length, (0 : Nat)).2 := hf2
      exact Prod.ext hfst hsnd
    obtain ⟨hp1, hp2, hp3⟩ :
        (∀ g ∈ f :: live, g.1 = (prev :: rest').length + 1 - 1 → g.2 < prev.top) ∧
        ((prev :: rest').length + 1 - 1 = 1 → 1 ≤ prev.top) ∧
        SavedTopsOK (f :: live) rest' ((prev :: rest').length + 1 - 1 - 1) := hsix
    have hmem_lt : ∀ d, 2 ≤ d → d ≤ rest'.length + 1 → (d, 0) ∈ live := by
      intro d hd2 hdn
      have hm := hthree d hd2 (by
        show d ≤ (prev :: rest').length + 1
        simp
        omega)
      rcases List.mem_cons.mp hm with he | hm2
      · exfalso
        have hd : d = f.1 := by rw [← he]
        have hfd3 : f.1 = (prev :: rest').length + 1 := hfd2
        simp at hfd3
        omega
      · exact hm2
    have hmain : FSInv ⟨prev :: rest', prev.top, prev.cap⟩ live := by
      refine ⟨?_, hpwt, ?_, ?_, ?_, ?_⟩
      · intro g hg
        have ha := hone g (List.mem_cons_of_mem f hg)
        have hb := hnof g hg
        have hb2 : g.1 < (prev :: rest').length + 1 := hb
        simp at hb2
        exact ⟨ha.1, show g.1 ≤ rest'.length + 1 by omega⟩
      · intro d hd2 hdn
        have hdn2 : d ≤ rest'.length + 1 := hdn
        exact hmem_lt d hd2 hdn2
      · intro g hg
        exact h4 g (List.mem_cons_of_mem f hg)
      · cases live with
        | nil =>
            refine ⟨show rest'.length + 1 ≤ 1 from ?_, fun hl => hp2 hl⟩
            by_contra hc
            push_neg at hc
            have := hmem_lt (rest'.length + 1) (by omega) (by omega)
            cases this
        | cons g t =>
            have hgle : g.1 ≤ rest'.length + 1 := by
              have hb := hnof g (List.mem_cons_self g t)
              have hb2 : g.1 < (prev :: rest').length + 1 := hb
              simp at hb2
              omega
            have hgd : g.1 = rest'.length + 1 := by
              rcases Nat.lt_or_ge rest'.length 1 with hlt | hge
              · have hr := hone g (List.mem_cons_of_mem f (List.mem_cons_self g t))
                omega
              · exact head_is_max _ _ _ hpwt
                  (hmem_lt (rest'.length + 1) (by omega) (by omega)) hgle
            refine ⟨hgd, ?_⟩
            refine hp1 g (List.mem_cons_of_mem f (List.mem_cons_self g t)) ?_
            show g.1 = (prev :: rest').length + 1 - 1
            simp
            omega
      · show SavedTopsOK live rest' (rest'.length + 1 - 1)
        refine savedTopsOK_mono _ _ _ _ ?_
          (fun g hg => .inl (List.mem_cons_of_mem f hg))
        exact hp3
    refine ⟨⟨prev :: rest', prev.top, prev.cap⟩, ?_, hmain⟩
    rw [popFrame_cons, if_pos hfeq]
  · -- ordinary pop: datastack_top is lowered to the frame's base
    have hne : ¬(f = ((c :: rest).length, 0)) := by
      intro he
      rw [he] at hf2
      exact hf2 rfl
    have hmem_ne : ∀ d, 2 ≤ d → d ≤ rest.length + 1 → (d, 0) ∈ live := by
      intro d hd2 hdn
      have hm := hthree d hd2 hdn
      rcases List.mem_cons.mp hm with he | hm2
      · exfalso
        rw [← he] at hf2
        exact hf2 rfl
      · exact hm2
    have hmain : FSInv ⟨c :: rest, f.2, limit⟩ live := by
      refine ⟨?_, hpwt, ?_, ?_, ?_, ?_⟩
      · intro g hg
        exact hone g (List.mem_cons_of_mem f hg)
      · intro d hd2 hdn
        have hdn2 : d ≤ rest.length + 1 := hdn
        exact hmem_ne d hd2 hdn2
      · intro g hg
        exact h4 g (List.mem_cons_of_mem f hg)
      · cases live with
        | nil =>
            refine ⟨show rest.length + 1 ≤ 1 from ?_, fun hl => ?_⟩
            · by_contra hc
              push_neg at hc
              have := hmem_ne (rest.length + 1) (by omega) (by omega)
              cases this
            · have hl2 : rest.length + 1 = 1 := hl
              have hr : 1 ≤ f.2 := h4 f (List.mem_cons_self f _) (by omega)
              exact hr
        | cons g t =>
            have hgle : g.1 ≤ rest.length + 1 :=
              (hone g (List.mem_cons_of_mem f (List.mem_cons_self g t))).2
            have hgd : g.1 = rest.length + 1 := by
              rcases Nat.lt_or_ge (rest.length + 1) 2 with hlt | hge
              · have hr := hone g (List.mem_cons_of_mem f (List.mem_cons_self g t))
                omega
              · exact head_is_max _ _ _ hpwt (hmem_ne _ hge (le_refl _)) hgle
            refine ⟨hgd, ?_⟩
            rcases hpw g (List.mem_cons_self g t) with hl | ⟨_, hb⟩
            · omega
            · exact hb
      · show SavedTopsOK live rest (rest.length + 1 - 1)
        refine savedTopsOK_mono _ _ _ _ ?_
          (fun g hg => .inl (List.mem_cons_of_mem f hg))
        exact hsix
    refine ⟨⟨c :: rest, f.2, limit⟩, ?_, hmain⟩
    rw [popFrame_cons, if_neg hne]

theorem runFrames_safe : ∀ (ops : List FrameOp) (s : FrameStack) (live : List FrameRef),
    FSInv s live → balanced ops live.length = true →
    ∃ r, runFrames s live ops = some r ∧ FSInv r.1 r.2
  | [], s, live, hinv, _ => ⟨(s, live), rfl, hinv⟩
  | .push size :: ops, s, live, hinv, hbal => by
      rw [balanced, Bool.and_eq_true, decide_eq_true_eq] at hbal
      obtain ⟨hsz, hbal⟩ := hbal
      have hstep := fsinv_pushFrame s live size hinv hsz
      obtain ⟨r, hrun, hinv'⟩ := runFrames_safe ops (pushFrame s size).1
        ((pushFrame s size).2 :: live) hstep (by simpa using hbal)
      refine ⟨r, ?_, hinv'⟩
      rw [runFrames, if_neg hsz]
      exact hrun
  | .pop :: ops, s, live, hinv, hbal => by
      rw [balanced, Bool.and_eq_true, decide_eq_true_eq] at hbal
      obtain ⟨hd, hbal⟩ := hbal
      cases live with
      | nil => exact absurd rfl hd
      | cons f live =>
        obtain ⟨s', hpop, hinv'⟩ := fsinv_popFrame s f live hinv
        obtain ⟨r, hrun, hinv2⟩ := runFrames_safe ops s' live hinv'
          (by simpa using hbal)
        refine ⟨r, ?_, hinv2⟩
        rw [runFrames, hpop]
        exact hrun

/-- C5: for every well-nested sequence of frame pushes and pops run from a
fresh thread state, `_PyThreadState_PopFrame` never reaches the free-chunk
branch on the root chunk: because `push_chunk` starts the root chunk's first
frame at `data[1]` instead of `data[0]`, a popped frame sits at `data[0]`
only in a non-root chunk, the `assert(previous)` never fails, the run never
aborts, and the root chunk survives for the life of the thread state. -/
theorem frame_stack_root_never_freed (ops : List FrameOp)
    (h : balanced ops 0 = true) :
    ∃ r, runFrames { chunks := [], top := 0, limit := 0 } [] ops = some r := by
  have hinv : FSInv { chunks := [], top := 0, limit := 0 } [] := by
    refine ⟨?_, List.Pairwise.nil, ?_, ?_, ?_, rfl⟩
    · intro f hf; cases hf
    · intro d hd2 hdn; simp at hdn; omega
    · intro f hf; cases hf
    · exact ⟨by simp, by simp⟩
  obtain ⟨r, hrun, _⟩ := runFrames_safe ops _ [] hinv h
  exact ⟨r, hrun⟩

theorem frame_stack_root_never_freed_w :
    balanced [.push 1500, .push 3000, .pop, .pop, .push 10, .pop] 0 = true ∧
    ∃ r, runFrames { chunks := [], top := 0, limit := 0 } []
      [.push 1500, .push 3000, .pop, .pop, .push 10, .pop] = some r :=
  ⟨by decide, frame_stack_root_never_freed _ (by decide)⟩

end CPy
